import Mathlib

/-!
Verification development for the constraint-propagation engine of the
repository (src/A2/csp/propagators.py, src/A2/csp/puzzle_csp.py) and the
Sokoban deadlock heuristics (src/A1/solution.py).

The Variable/Constraint/CSP substrate (`cspbase`) is not part of the
sources, so its capability surface is modelled from the specification
(sections 3 and 6 of spec.md).  The propagators themselves are translated
directly from `propagators.py`; the model compilers from `puzzle_csp.py`;
the deadlock check from `solution.py`.

Variables are identified by natural numbers (Python object identity);
values are natural numbers.  A propagation state carries the current
domain of every variable (an association list, first binding wins) and
the assignment, which the engine never modifies.
-/

abbrev Val := Nat
abbrev VarId := Nat

/-- Modelled from the spec: a constraint is an ordered scope of variables
together with an explicit table of satisfying tuples (spec section 3,
`Constraint`; `cspbase` is not among the sources). -/
structure Constraint where
  scope : List VarId
  tuples : List (List Val)
  deriving DecidableEq

instance : Inhabited Constraint := ⟨⟨[], []⟩⟩

/-- Modelled from the spec: the CSP owns the constraint list
(spec section 3, `CSP`; the variable list is not consulted by the
propagators and is omitted here). -/
structure CSP where
  cons : List Constraint

/-- Propagation-time mutable state: current domains plus the assignment.
The assignment is set by the external search driver and is read-only for
the engine (spec section 3, `Variable`). -/
structure PState where
  doms : List (VarId × List Val)
  asn : VarId → Option Val

/-- First-binding lookup in the domain association list. -/
def lookupDom : List (VarId × List Val) → VarId → List Val
  | [], _ => []
  | p :: rest, v => if p.1 = v then p.2 else lookupDom rest v

/-- Modelled from the spec: `current_domain()` of a variable
(spec section 6).  A variable with no binding has the empty domain. -/
def curDom (s : PState) (v : VarId) : List Val := lookupDom s.doms v

/-- Remove value `d` from the domain bound to `v`. -/
def pruneDoms (doms : List (VarId × List Val)) (v : VarId) (d : Val) :
    List (VarId × List Val) :=
  doms.map fun p => if p.1 = v then (p.1, p.2.erase d) else p

/-- Modelled from the spec: `prune_value(value)` removes the value from the
current domain if present (spec section 6). -/
def prune (s : PState) (v : VarId) (d : Val) : PState :=
  { s with doms := pruneDoms s.doms v d }

/-- Replay a pruning list against a state, in order. -/
def applyPrunes (s : PState) (ps : List (VarId × Val)) : PState :=
  ps.foldl (fun st p => prune st p.1 p.2) s

/-- Total number of values over all domain bindings (termination measure). -/
def domSize (s : PState) : Nat := (s.doms.map fun p => p.2.length).sum

/-- Well-formed state: every stored domain is duplicate-free, matching the
spec's data model where a domain is an ordered set (spec section 3). -/
def WFState (s : PState) : Prop := ∀ p ∈ s.doms, p.2.Nodup

instance (s : PState) : Decidable (WFState s) := by
  unfold WFState; infer_instance

/-- Modelled from the spec: `check(values_in_scope_order)` tests membership
of the scope-ordered value tuple in the satisfying-tuple table
(spec sections 3 and 6).  Unassigned entries (`none`) match no tuple. -/
def checkVals (c : Constraint) (vals : List (Option Val)) : Bool :=
  c.tuples.any fun t => t.map some == vals

/-- Modelled from the spec: `count_unassigned()` (spec section 6),
the number of scope variables with no assigned value. -/
def nUnasgn (s : PState) (c : Constraint) : Nat :=
  (c.scope.filter fun v => (s.asn v).isNone).length

/-- Modelled from the spec: `unassigned_variables()` (spec section 6),
the scope variables with no assigned value, in scope order. -/
def unasgnVars (s : PState) (c : Constraint) : List VarId :=
  c.scope.filter fun v => (s.asn v).isNone

/-- Modelled from the spec: `has_support(variable, value)`
(spec sections 4.3 and 6): some satisfying tuple holds `d` at `v`'s
position and every other position's value lies in that variable's current
domain. -/
def hasSupport (s : PState) (c : Constraint) (v : VarId) (d : Val) : Bool :=
  c.tuples.any fun t =>
    (c.scope.zip t).all fun p =>
      if p.1 = v then p.2 == d else decide (p.2 ∈ curDom s p.1)

/-- Modelled from the spec: `constraints_containing(variable)`
(spec section 6), as indices into `csp.cons`, in constraint order.
Indices model Python object identity of constraints on the GAC queue. -/
def consWithVar (csp : CSP) (v : VarId) : List Nat :=
  (List.range csp.cons.length).filter fun i => v ∈ (csp.cons.getD i default).scope

/-- The working constraint list selected by the entry points: all
constraints on a pre-search call, the constraints containing the newly
assigned variable otherwise (`get_all_cons` / `get_cons_with_var`). -/
def selectedCons (csp : CSP) (newVar : Option VarId) : List Constraint :=
  match newVar with
  | none => csp.cons
  | some v => csp.cons.filter fun c => v ∈ c.scope

/-- Loop body of `prop_BT`: scan the constraints, and on each fully
instantiated one evaluate `check` on the assigned values in scope order;
return `false` at the first violation (propagators.py lines 70-77). -/
def prop_BT_loop (s : PState) : List Constraint → Bool
  | [] => true
  | c :: rest =>
    if nUnasgn s c = 0 then
      if checkVals c (c.scope.map s.asn) then prop_BT_loop s rest else false
    else prop_BT_loop s rest

/-- `prop_BT` from propagators.py lines 64-78: plain backtracking check.
No pruning, no state change. -/
def prop_BT (csp : CSP) (newVar : Option VarId) (s : PState) :
    Bool × List (VarId × Val) × PState :=
  match newVar with
  | none => (true, [], s)
  | some v => (prop_BT_loop s (selectedCons csp (some v)), [], s)

/-- The scope-ordered tuple built inside `FCCheck` (propagators.py lines
116-121): `d` at every position holding `x`, the assigned value elsewhere. -/
def substVals (c : Constraint) (x : VarId) (d : Val) (s : PState) :
    List (Option Val) :=
  c.scope.map fun w => if w = x then some d else s.asn w

/-- The `for domain_member in x.cur_domain()` loop of `FCCheck`
(propagators.py lines 110-129), recursing over the domain snapshot taken
at entry.  Returns (DWO?, prunings, state).  The emptiness test runs on
every iteration, exactly as in the source. -/
def FCCheck_vals (c : Constraint) (x : VarId) :
    List Val → PState → Bool × List (VarId × Val) × PState
  | [], s => (false, [], s)
  | d :: rest, s =>
    if checkVals c (substVals c x d s) = false then
      let s1 := prune s x d
      if curDom s1 x = [] then (true, [(x, d)], s1)
      else
        let r := FCCheck_vals c x rest s1
        (r.1, (x, d) :: r.2.1, r.2.2)
    else
      if curDom s x = [] then (true, [], s)
      else FCCheck_vals c x rest s

/-- `FCCheck(c, x)` from propagators.py lines 106-131. -/
def FCCheck (c : Constraint) (x : VarId) (s : PState) :
    Bool × List (VarId × Val) × PState :=
  FCCheck_vals c x (curDom s x) s

/-- The constraint loop of `prop_FC` (propagators.py lines 93-103):
forward-check each constraint with exactly one unassigned variable,
accumulate prunings, stop at the first DWO. -/
def prop_FC_loop : List Constraint → PState → Bool × List (VarId × Val) × PState
  | [], s => (true, [], s)
  | con :: rest, s =>
    if nUnasgn s con = 1 then
      let r := FCCheck con ((unasgnVars s con).headD 0) s
      if r.1 = true then (false, r.2.1, r.2.2)
      else
        let r2 := prop_FC_loop rest r.2.2
        (r2.1, r.2.1 ++ r2.2.1, r2.2.2)
    else prop_FC_loop rest s

/-- `prop_FC` from propagators.py lines 81-103. -/
def prop_FC (csp : CSP) (newVar : Option VarId) (s : PState) :
    Bool × List (VarId × Val) × PState :=
  prop_FC_loop (selectedCons csp newVar) s

/-- `queue = [con] + queue` (propagators.py lines 147 and 181):
additions always prepend. -/
def gacPush (ci : Nat) (q : List Nat) : List Nat := ci :: q

/-- `queue.pop()` (propagators.py line 163): removes and returns the last
element of the list. -/
def gacPop : List Nat → Option (Nat × List Nat)
  | [] => none
  | a :: rest => some ((a :: rest).getLast (List.cons_ne_nil a rest), (a :: rest).dropLast)

/-- The seeding loop of `prop_GAC` (propagators.py lines 146-147):
prepend each selected constraint in turn. -/
def seedQueue (cis : List Nat) : List Nat :=
  cis.foldl (fun q ci => gacPush ci q) []

/-- The re-enqueue loop after a pruning (propagators.py lines 179-181):
prepend every constraint containing `v` that is not already on the queue. -/
def enqueueCons (csp : CSP) (v : VarId) (q : List Nat) : List Nat :=
  (consWithVar csp v).foldl (fun q2 ci => if ci ∈ q2 then q2 else gacPush ci q2) q

/-- Result of processing one popped constraint in `GAC`: either a domain
wipeout (with the prunings and the state at the wipeout) or normal
completion (prunings, state, updated queue). -/
inductive ScanRes where
  | dwo (ps : List (VarId × Val)) (s : PState)
  | ok (ps : List (VarId × Val)) (s : PState) (q : List Nat)

/-- The `for curr in constraint.cur_domain()` loop of `GAC`
(propagators.py lines 166-183) over the snapshot taken when variable `v`'s
turn begins: prune each unsupported value, on survival re-enqueue the
constraints containing `v`, on wipeout stop with DWO. -/
def gacScanVals (csp : CSP) (c : Constraint) (v : VarId) :
    List Val → PState → List Nat → ScanRes
  | [], s, q => .ok [] s q
  | d :: rest, s, q =>
    if hasSupport s c v d = false then
      let s1 := prune s v d
      if curDom s1 v = [] then .dwo [(v, d)] s1
      else
        let q1 := enqueueCons csp v q
        match gacScanVals csp c v rest s1 q1 with
        | .dwo ps s2 => .dwo ((v, d) :: ps) s2
        | .ok ps s2 q2 => .ok ((v, d) :: ps) s2 q2
    else gacScanVals csp c v rest s q

/-- The `for constraint in c.get_scope()` loop of `GAC`
(propagators.py lines 164-183): scan every scope variable of the popped
constraint, including already-assigned ones. -/
def gacScanScope (csp : CSP) (c : Constraint) :
    List VarId → PState → List Nat → ScanRes
  | [], s, q => .ok [] s q
  | v :: vrest, s, q =>
    match gacScanVals csp c v (curDom s v) s q with
    | .dwo ps s1 => .dwo ps s1
    | .ok ps s1 q1 =>
      match gacScanScope csp c vrest s1 q1 with
      | .dwo ps2 s2 => .dwo (ps ++ ps2) s2
      | .ok ps2 s2 q2 => .ok (ps ++ ps2) s2 q2

/-- Fuel bound under which the `while queue` loop of `GAC` provably
terminates (domains only shrink; every iteration either prunes or shortens
the queue). -/
def gacBound (csp : CSP) (q : List Nat) (s : PState) : Nat :=
  domSize s * (csp.cons.length + 1) + q.length + 1

/-- The `while queue` loop of `GAC` (propagators.py lines 162-185), with an
explicit fuel parameter standing for the termination argument; `none`
means the fuel ran out (shown unreachable from `gacBound`). -/
def GACfuel (csp : CSP) : Nat → List Nat → PState →
    Option (Bool × List (VarId × Val) × PState)
  | 0, _, _ => none
  | fuel + 1, queue, s =>
    match gacPop queue with
    | none => some (false, [], s)
    | some (ci, q0) =>
      let c := csp.cons.getD ci default
      match gacScanScope csp c c.scope s q0 with
      | .dwo ps s1 => some (true, ps, s1)
      | .ok ps s1 q1 =>
        match GACfuel csp fuel q1 s1 with
        | none => none
        | some r => some (r.1, ps ++ r.2.1, r.2.2)

/-- `GAC(queue, csp)` from propagators.py lines 157-185. -/
def GAC (csp : CSP) (queue : List Nat) (s : PState) :
    Bool × List (VarId × Val) × PState :=
  (GACfuel csp (gacBound csp queue s) queue s).getD (false, [], s)

/-- `prop_GAC` from propagators.py lines 134-154: seed the queue with all
constraints (pre-search) or the constraints containing the newly assigned
variable, run `GAC`, and flip the DWO flag into the consistency flag. -/
def prop_GAC (csp : CSP) (newVar : Option VarId) (s : PState) :
    Bool × List (VarId × Val) × PState :=
  let seeds := match newVar with
    | none => List.range csp.cons.length
    | some v => consWithVar csp v
  let r := GAC csp (seedQueue seeds) s
  (!r.1, r.2.1, r.2.2)

/-- The GAC invariant for one constraint (spec section 4.3): every value of
every scope variable's current domain has a support. -/
def gacConsistent (s : PState) (c : Constraint) : Prop :=
  ∀ v ∈ c.scope, ∀ d ∈ curDom s v, hasSupport s c v d = true

instance (s : PState) (c : Constraint) : Decidable (gacConsistent s c) := by
  unfold gacConsistent; infer_instance

/-- `PruneSeg s ps s1` : the passage from `s` to `s1` consists exactly of
the prunings `ps` in order; on a well-formed state the pruned values were
present before and are absent afterwards, pairwise without repetition. -/
def PruneSeg (s : PState) (ps : List (VarId × Val)) (s1 : PState) : Prop :=
  s1 = applyPrunes s ps ∧
    (WFState s → ps.Nodup ∧ (∀ p ∈ ps, p.2 ∈ curDom s p.1) ∧
      ∀ p ∈ ps, p.2 ∉ curDom s1 p.1)


/-- Per-constraint forward-checking fixpoint property: if the constraint
has exactly one unassigned variable, every remaining value of that
variable passes the check. -/
def FCgood (s : PState) (c : Constraint) : Prop :=
  nUnasgn s c = 1 →
    ∀ e ∈ curDom s ((unasgnVars s c).headD 0),
      checkVals c (substVals c ((unasgnVars s c).headD 0) e s) = true


/-! ### FunPuzz model compilers, from src/A2/csp/puzzle_csp.py -/

/-- A FunPuzz `Variable` object: `id` models Python object identity by
creation order, `name` encodes the name string 'V{row}{col}' as the number
(row+1)*10+(col+1), `dom` is the construction-time domain (`domain()`). -/
structure PVar where
  id : Nat
  name : Nat
  dom : List Int
  deriving DecidableEq

instance : Inhabited PVar := ⟨⟨0, 0, []⟩⟩

/-- A puzzle `Constraint` object: ordered scope (Variable objects) plus the
satisfying tuples added by `add_satisfying_tuples`. -/
structure PCon where
  scope : List PVar
  tuples : List (List Int)
  deriving DecidableEq

/-- A puzzle `CSP` object: the variable list given at construction and the
constraints appended by `add_constraint`. -/
structure PuzzCSP where
  vars : List PVar
  cons : List PCon
  deriving DecidableEq

/-- `list(range(1, size + 1))` as integers. -/
def oneTo (size : Nat) : List Int :=
  (List.range size).map fun k => (k + 1 : Int)

/-- `itertools.product(*lists)`: first list varies slowest. -/
def listProd : List (List Int) → List (List Int)
  | [] => [[]]
  | d :: ds => d.flatMap fun x => (listProd ds).map fun rest => x :: rest

/-- The binary not-equal satisfying tuples of `binary_ne_grid`
(puzzle_csp.py lines 56-58). -/
def neTuples (size : Nat) : List (List Int) :=
  (listProd [oneTo size, oneTo size]).filter fun t =>
    ! (t.getD 0 0 == t.getD 1 0)

/-- The grid variables of `binary_ne_grid` (puzzle_csp.py lines 46-53),
created row-major; ids record creation order. -/
def gridVars (size : Nat) : List (List PVar) :=
  (List.range size).map fun row =>
    (List.range size).map fun col =>
      ⟨row * size + col, (row + 1) * 10 + (col + 1), oneTo size⟩

/-- The row/column constraints of `binary_ne_grid`
(puzzle_csp.py lines 61-72), in creation order. -/
def binary_ne_cons (vars : List (List PVar)) (size : Nat) : List PCon :=
  (List.range size).flatMap fun i =>
    (List.range size).flatMap fun j =>
      ((List.range size).filter fun k => j + 1 ≤ k).flatMap fun k =>
        [⟨[(vars.getD i []).getD j default, (vars.getD i []).getD k default],
            neTuples size⟩,
          ⟨[(vars.getD j []).getD i default, (vars.getD k []).getD i default],
            neTuples size⟩]

/-- `binary_ne_grid` from puzzle_csp.py lines 35-79. -/
def binary_ne_grid (fpuzz : List (List Nat)) : PuzzCSP × List (List PVar) :=
  let size := (fpuzz.headD []).headD 0
  let varArr := gridVars size
  (⟨varArr.flatten, binary_ne_cons varArr size⟩, varArr)

/-- Row index of a two-digit cell code: `int(str(cell)[0]) - 1`
(puzzle_csp.py line 144; boards encode cells as two-digit numbers). -/
def cellRow (c : Nat) : Nat := c / 10 - 1

/-- Column index of a two-digit cell code: `int(str(cell)[1]) - 1`
(puzzle_csp.py line 145). -/
def cellCol (c : Nat) : Nat := c % 10 - 1

/-- The satisfying tuples of one arithmetic cage
(puzzle_csp.py lines 168-210): operation 0 sum, 1 subtraction over
permutations, 2 division over permutations (Python float division modelled
as exact rational division), 3 multiplication.  One copy of the domain
tuple is appended per matching permutation, as in the source. -/
def cageTuples (op : Nat) (target : Nat) (doms : List (List Int)) :
    List (List Int) :=
  (listProd doms).flatMap fun dom =>
    if op = 0 then
      if dom.sum = (target : Int) then [dom] else []
    else if op = 1 then
      (dom.permutations.filter fun num =>
        num.headD 0 - num.tail.sum = (target : Int)).map fun _ => dom
    else if op = 2 then
      (dom.permutations.filter fun num =>
        ((num.headD 0 : ℚ)) / ((num.tail.map fun z => (z : ℚ)).prod) =
          (target : ℚ)).map fun _ => dom
    else if op = 3 then
      if dom.prod = (target : Int) then [dom] else []
    else []

/-- One iteration of the cage loop of `caged_csp_model`
(puzzle_csp.py lines 138-211), threading the variable array, the fresh
object counter, and the accumulated cage constraints. -/
def cageStep : List (List PVar) × Nat × List PCon → List Nat →
    List (List PVar) × Nat × List PCon
  | (vars, fresh, consAcc), cage =>
    if cage.length = 2 then
      let row := cellRow (cage.getD 0 0)
      let col := cellCol (cage.getD 0 0)
      let target := cage.getD 1 0
      let newVar : PVar := ⟨fresh, (row + 1) * 10 + (col + 1), [(target : Int)]⟩
      (vars.set row ((vars.getD row []).set col newVar), fresh + 1, consAcc)
    else
      let op := cage.getLastD 0
      let target := cage.dropLast.getLastD 0
      let cells := cage.dropLast.dropLast
      let cage_vars := cells.map fun cNum =>
        (vars.getD (cellRow cNum) []).getD (cellCol cNum) default
      let doms := cage_vars.map PVar.dom
      (vars, fresh, consAcc ++ [⟨cage_vars, cageTuples op target doms⟩])

/-- `caged_csp_model` from puzzle_csp.py lines 133-217: the grid model
plus the cage processing.  A 2-element cage replaces the cell's entry in
the variable array with a freshly created Variable object (line 147)
without registering it in the CSP. -/
def caged_csp_model (fpuzz : List (List Nat)) : PuzzCSP × List (List PVar) :=
  let r0 := binary_ne_grid fpuzz
  let size := (fpuzz.headD []).headD 0
  let r1 := (fpuzz.drop 1).foldl cageStep (r0.2, size * size, [])
  (⟨r0.1.vars, r0.1.cons ++ r1.2.2⟩, r1.1)

/-! ### Sokoban deadlock heuristics, from src/A1/solution.py -/

/-- The parts of a Sokoban state consulted by `edge_without_storage`. -/
structure SokState where
  width : Nat
  height : Nat
  storage : List (Nat × Nat)
  boxes : List (Nat × Nat)

/-- The `possible_storages` computation of `edge_without_storage`
(solution.py lines 61-66): storage positions minus occupied ones. -/
def possibleStorages (st : SokState) : List (Nat × Nat) :=
  st.boxes.foldl (fun acc b => if b ∈ acc then acc.erase b else acc) st.storage

/-- `edge_without_storage` from solution.py lines 56-84, translated
branch by branch.  Note the last branch tests `state.width - 1` against
the y-coordinates, exactly as in the source (line 81). -/
def edge_without_storage (box : Nat × Nat) (st : SokState) : Bool :=
  let ps := possibleStorages st
  let x_list := ps.map Prod.fst
  let y_list := ps.map Prod.snd
  if box.1 = 0 ∧ 0 ∉ x_list then true
  else if box.1 = st.width - 1 ∧ (st.width - 1) ∉ x_list then true
  else if box.2 = 0 ∧ 0 ∉ y_list then true
  else if box.2 = st.height - 1 ∧ (st.width - 1) ∉ y_list then true
  else false

/-- Modelled from the spec: the intended symmetric bottom-boundary rule
(spec section 9, open question) — a box on the bottom boundary is a
deadlock when `state.height - 1` does not occur among the y-coordinates of
the available storage positions. -/
def edge_without_storage_symmetric (box : Nat × Nat) (st : SokState) : Bool :=
  let ps := possibleStorages st
  let x_list := ps.map Prod.fst
  let y_list := ps.map Prod.snd
  if box.1 = 0 ∧ 0 ∉ x_list then true
  else if box.1 = st.width - 1 ∧ (st.width - 1) ∉ x_list then true
  else if box.2 = 0 ∧ 0 ∉ y_list then true
  else if box.2 = st.height - 1 ∧ (st.height - 1) ∉ y_list then true
  else false


/-! ### Concrete instances used by the claim witnesses -/

/-- Assignment with variable 0 assigned the value 1. -/
def wAsn1 : VarId → Option Val := fun v => if v = 0 then some 1 else none

/-- State with domains 0 ↦ {1} (assigned) and 1 ↦ {3}. -/
def wS1 : PState := ⟨[(0, [1]), (1, [3])], wAsn1⟩

/-- One binary constraint over (0, 1) satisfied only by the tuple (1, 2). -/
def wCsp1 : CSP := ⟨[⟨[0, 1], [[1, 2]]⟩]⟩

/-- State with both domains {1, 2} and nothing assigned. -/
def wS2 : PState := ⟨[(0, [1, 2]), (1, [1, 2])], fun _ => none⟩

/-- A binary not-equal constraint over (0, 1) on domains {1, 2}. -/
def wCsp2 : CSP := ⟨[⟨[0, 1], [[1, 2], [2, 1]]⟩]⟩

/-- Assignment with variables 0 and 1 both assigned the value 1. -/
def wAsn3 : VarId → Option Val :=
  fun v => if v = 0 then some 1 else if v = 1 then some 1 else none

/-- Fully assigned state with singleton domains 0 ↦ {1}, 1 ↦ {1}. -/
def wS3 : PState := ⟨[(0, [1]), (1, [1])], wAsn3⟩

/-- One fully instantiated constraint over (0, 1), violated by (1, 1). -/
def wCsp3 : CSP := ⟨[⟨[0, 1], [[1, 2]]⟩]⟩

/-- A 3×2 Sokoban state: one storage square at (0, 1), one box at (1, 1). -/
def wSok : SokState := ⟨3, 2, [(0, 1)], [(1, 1)]⟩


/-! ### Basic lemmas about the state model -/

@[simp] theorem lookupDom_nil (w : VarId) : lookupDom [] w = [] := rfl

@[simp] theorem lookupDom_cons (q : VarId × List Val) (l : List (VarId × List Val))
    (w : VarId) : lookupDom (q :: l) w = if q.1 = w then q.2 else lookupDom l w := rfl

theorem pruneDoms_cons (p : VarId × List Val) (l : List (VarId × List Val))
    (v : VarId) (d : Val) :
    pruneDoms (p :: l) v d =
      (if p.1 = v then (p.1, p.2.erase d) else p) :: pruneDoms l v d := rfl

theorem lookupDom_pruneDoms (doms : List (VarId × List Val)) (v : VarId) (d : Val)
    (w : VarId) :
    lookupDom (pruneDoms doms v d) w =
      if w = v then (lookupDom doms v).erase d else lookupDom doms w := by
  induction doms with
  | nil =>
    simp only [pruneDoms, List.map_nil, lookupDom_nil]
    split <;> rfl
  | cons p rest ih =>
    rw [pruneDoms_cons]
    by_cases h1 : p.1 = v
    · rw [if_pos h1]
      by_cases h2 : w = v
      · have h3 : p.1 = w := by rw [h1, h2]
        simp [h3, h2, h1]
      · have h3 : ¬ p.1 = w := by rw [h1]; exact fun hh => h2 hh.symm
        simp [h3, h2, ih]
    · rw [if_neg h1]
      by_cases h3 : p.1 = w
      · have h2 : ¬ w = v := by rw [← h3]; exact h1
        simp [h3, h2]
      · simp [h3, h1, ih]

@[simp] theorem curDom_prune (s : PState) (v : VarId) (d : Val) (w : VarId) :
    curDom (prune s v d) w =
      if w = v then (curDom s v).erase d else curDom s w := by
  unfold curDom prune
  exact lookupDom_pruneDoms s.doms v d w

@[simp] theorem asn_prune (s : PState) (v : VarId) (d : Val) :
    (prune s v d).asn = s.asn := rfl

@[simp] theorem applyPrunes_nil (s : PState) : applyPrunes s [] = s := rfl

@[simp] theorem applyPrunes_cons (s : PState) (p : VarId × Val)
    (ps : List (VarId × Val)) :
    applyPrunes s (p :: ps) = applyPrunes (prune s p.1 p.2) ps := rfl

theorem applyPrunes_append (s : PState) (ps1 ps2 : List (VarId × Val)) :
    applyPrunes s (ps1 ++ ps2) = applyPrunes (applyPrunes s ps1) ps2 := by
  unfold applyPrunes
  exact List.foldl_append _ _ _ _

@[simp] theorem asn_applyPrunes (s : PState) (ps : List (VarId × Val)) :
    (applyPrunes s ps).asn = s.asn := by
  induction ps generalizing s with
  | nil => rfl
  | cons p ps ih => simp [ih]

theorem mem_curDom_applyPrunes (s : PState) (ps : List (VarId × Val)) (v : VarId)
    (x : Val) (h : x ∈ curDom (applyPrunes s ps) v) : x ∈ curDom s v := by
  induction ps generalizing s with
  | nil => exact h
  | cons p ps ih =>
    simp only [applyPrunes_cons] at h
    have h2 := ih (prune s p.1 p.2) h
    rw [curDom_prune] at h2
    by_cases hv : v = p.1
    · rw [if_pos hv] at h2
      rw [hv]
      exact List.mem_of_mem_erase h2
    · rwa [if_neg hv] at h2

theorem curDom_applyPrunes_of_not_mem (s : PState) (ps : List (VarId × Val))
    (v : VarId) (h : v ∉ ps.map Prod.fst) :
    curDom (applyPrunes s ps) v = curDom s v := by
  induction ps generalizing s with
  | nil => rfl
  | cons p ps ih =>
    simp only [List.map_cons, List.mem_cons] at h
    push_neg at h
    simp only [applyPrunes_cons]
    rw [ih _ h.2, curDom_prune, if_neg h.1]

theorem WFState_prune (s : PState) (v : VarId) (d : Val) (h : WFState s) :
    WFState (prune s v d) := by
  intro p hp
  simp only [prune, pruneDoms, List.mem_map] at hp
  obtain ⟨p0, hp0, heq⟩ := hp
  by_cases h1 : p0.1 = v
  · simp only [h1, if_pos] at heq
    rw [← heq]
    exact (h p0 hp0).erase d
  · simp only [h1, if_neg, not_false_iff] at heq
    rw [← heq]
    exact h p0 hp0

theorem WFState_applyPrunes (s : PState) (ps : List (VarId × Val))
    (h : WFState s) : WFState (applyPrunes s ps) := by
  induction ps generalizing s with
  | nil => exact h
  | cons p ps ih => exact ih _ (WFState_prune _ _ _ h)

theorem lookupDom_nodup (doms : List (VarId × List Val)) (v : VarId)
    (h : ∀ p ∈ doms, p.2.Nodup) : (lookupDom doms v).Nodup := by
  induction doms with
  | nil => simp [lookupDom]
  | cons p rest ih =>
    simp only [lookupDom]
    split
    · exact h p (List.mem_cons_self _ _)
    · exact ih fun q hq => h q (List.mem_cons_of_mem _ hq)

theorem curDom_nodup (s : PState) (v : VarId) (h : WFState s) :
    (curDom s v).Nodup := lookupDom_nodup s.doms v h

theorem list_all_congr {α : Type} {l : List α} {f g : α → Bool}
    (h : ∀ a ∈ l, f a = g a) : l.all f = l.all g := by
  induction l with
  | nil => rfl
  | cons a l ih =>
    simp only [List.all_cons]
    rw [h a (List.mem_cons_self _ _), ih fun b hb => h b (List.mem_cons_of_mem _ hb)]

theorem list_any_congr {α : Type} {l : List α} {f g : α → Bool}
    (h : ∀ a ∈ l, f a = g a) : l.any f = l.any g := by
  induction l with
  | nil => rfl
  | cons a l ih =>
    simp only [List.any_cons]
    rw [h a (List.mem_cons_self _ _), ih fun b hb => h b (List.mem_cons_of_mem _ hb)]

theorem hasSupport_congr (s1 s2 : PState) (c : Constraint) (v : VarId) (d : Val)
    (h : ∀ w ∈ c.scope, curDom s1 w = curDom s2 w) :
    hasSupport s1 c v d = hasSupport s2 c v d := by
  unfold hasSupport
  refine list_any_congr fun t _ => ?_
  refine list_all_congr fun p hp => ?_
  have hw : p.1 ∈ c.scope := (List.of_mem_zip hp).1
  by_cases h1 : p.1 = v
  · simp [h1]
  · simp [h1, h p.1 hw]

theorem substVals_asn_eq (c : Constraint) (x : VarId) (d : Val) (s1 s2 : PState)
    (h : s1.asn = s2.asn) : substVals c x d s1 = substVals c x d s2 := by
  unfold substVals
  rw [h]

/-! ### Pruning-segment predicate: the shape shared by every propagation
step (exact state change, values drawn from the current domain, no value
reported twice). -/

theorem seg_nil (s : PState) : PruneSeg s [] s :=
  ⟨rfl, fun _ => ⟨List.nodup_nil, by simp, by simp⟩⟩

theorem seg_single (s : PState) (v : VarId) (d : Val) (h : d ∈ curDom s v) :
    PruneSeg s [(v, d)] (prune s v d) := by
  refine ⟨rfl, fun hwf => ⟨List.nodup_singleton _, ?_, ?_⟩⟩
  · intro p hp
    rw [List.mem_singleton] at hp
    subst hp
    exact h
  · intro p hp
    rw [List.mem_singleton] at hp
    subst hp
    simp only [applyPrunes_cons, applyPrunes_nil, curDom_prune, if_pos rfl]
    exact (curDom_nodup s v hwf).not_mem_erase

theorem seg_comp (s s1 s2 : PState) (ps1 ps2 : List (VarId × Val))
    (h1 : PruneSeg s ps1 s1) (h2 : PruneSeg s1 ps2 s2) :
    PruneSeg s (ps1 ++ ps2) s2 := by
  obtain ⟨e1, w1⟩ := h1
  obtain ⟨e2, w2⟩ := h2
  refine ⟨by rw [applyPrunes_append, ← e1, ← e2], fun hwf => ?_⟩
  have hwf1 : WFState s1 := e1 ▸ WFState_applyPrunes s ps1 hwf
  obtain ⟨nd1, in1, out1⟩ := w1 hwf
  obtain ⟨nd2, in2, out2⟩ := w2 hwf1
  have hdisj : ∀ p ∈ ps1, p ∉ ps2 := by
    intro p hp1 hp2
    exact out1 p hp1 (in2 p hp2)
  refine ⟨List.Nodup.append nd1 nd2 fun p hp1 hp2 => hdisj p hp1 hp2, ?_, ?_⟩
  · intro p hp
    rcases List.mem_append.mp hp with h | h
    · exact in1 p h
    · exact mem_curDom_applyPrunes s ps1 p.1 p.2 (e1 ▸ in2 p h)
  · intro p hp hmem
    rcases List.mem_append.mp hp with h | h
    · exact out1 p h (mem_curDom_applyPrunes s1 ps2 p.1 p.2 (e2 ▸ hmem))
    · exact out2 p h hmem

/-! ### Forward-checking lemmas -/

theorem count_tail_le (d a : Val) (rest : List Val) :
    rest.count a ≤ (d :: rest).count a := by
  simp only [List.count_cons]
  omega

theorem count_erase_of_count_le (d : Val) (rest l : List Val)
    (h : ∀ a, (d :: rest).count a ≤ l.count a) :
    ∀ a, rest.count a ≤ (l.erase d).count a := by
  intro a
  have hc := h a
  have hd := h d
  rw [List.count_erase]
  simp only [List.count_cons] at hc hd
  by_cases had : a = d
  · subst had
    simp at hd ⊢
    omega
  · have : (d == a) = false := by
      simp [BEq.beq]
      exact fun hh => had hh.symm
    simp [this]
    simp [show (a == d) = false by simp [BEq.beq]; exact had] at hc
    omega

theorem mem_of_count_pos_head (d : Val) (rest l : List Val)
    (h : ∀ a, (d :: rest).count a ≤ l.count a) : d ∈ l := by
  have := h d
  simp [List.count_cons] at this
  exact List.count_pos_iff.mp (by omega)

theorem FCCheck_vals_seg (c : Constraint) (x : VarId) :
    ∀ (vals : List Val) (s : PState) (b : Bool) (ps : List (VarId × Val))
      (s1 : PState),
      FCCheck_vals c x vals s = (b, ps, s1) →
      (∀ a, vals.count a ≤ (curDom s x).count a) →
      PruneSeg s ps s1 := by
  intro vals
  induction vals with
  | nil =>
    intro s b ps s1 h _
    simp only [FCCheck_vals, Prod.mk.injEq] at h
    obtain ⟨-, h2, h3⟩ := h
    rw [← h2, ← h3]
    exact seg_nil s
  | cons d rest ih =>
    intro s b ps s1 h hcnt
    simp only [FCCheck_vals] at h
    by_cases hchk : checkVals c (substVals c x d s) = false
    · rw [if_pos hchk] at h
      by_cases hemp : curDom (prune s x d) x = []
      · rw [if_pos hemp] at h
        simp only [Prod.mk.injEq] at h
        obtain ⟨-, h2, h3⟩ := h
        rw [← h2, ← h3]
        exact seg_single s x d (mem_of_count_pos_head d rest _ hcnt)
      · rw [if_neg hemp] at h
        simp only [Prod.mk.injEq] at h
        obtain ⟨-, h2, h3⟩ := h
        have hcnt1 : ∀ a, rest.count a ≤ (curDom (prune s x d) x).count a := by
          intro a
          rw [curDom_prune, if_pos rfl]
          exact count_erase_of_count_le d rest _ hcnt a
        have hseg := ih (prune s x d) _ _ _ rfl hcnt1
        rw [← h2, ← h3]
        exact seg_comp _ _ _ _ _
          (seg_single s x d (mem_of_count_pos_head d rest _ hcnt)) hseg
    · rw [if_neg hchk] at h
      by_cases hemp : curDom s x = []
      · rw [if_pos hemp] at h
        simp only [Prod.mk.injEq] at h
        obtain ⟨-, h2, h3⟩ := h
        rw [← h2, ← h3]
        exact seg_nil s
      · rw [if_neg hemp] at h
        exact ih s b ps s1 h fun a => le_trans (count_tail_le d a rest) (hcnt a)

theorem FCCheck_seg (c : Constraint) (x : VarId) (s : PState) (b : Bool)
    (ps : List (VarId × Val)) (s1 : PState) (h : FCCheck c x s = (b, ps, s1)) :
    PruneSeg s ps s1 :=
  FCCheck_vals_seg c x (curDom s x) s b ps s1 h fun _ => le_refl _

theorem prop_FC_loop_seg :
    ∀ (cl : List Constraint) (s : PState) (b : Bool) (ps : List (VarId × Val))
      (s1 : PState), prop_FC_loop cl s = (b, ps, s1) → PruneSeg s ps s1 := by
  intro cl
  induction cl with
  | nil =>
    intro s b ps s1 h
    simp only [prop_FC_loop, Prod.mk.injEq] at h
    obtain ⟨-, h2, h3⟩ := h
    rw [← h2, ← h3]
    exact seg_nil s
  | cons con rest ih =>
    intro s b ps s1 h
    simp only [prop_FC_loop] at h
    by_cases hn : nUnasgn s con = 1
    · rw [if_pos hn] at h
      by_cases hd : (FCCheck con ((unasgnVars s con).headD 0) s).1 = true
      · rw [if_pos hd] at h
        simp only [Prod.mk.injEq] at h
        obtain ⟨-, h2, h3⟩ := h
        rw [← h2, ← h3]
        exact FCCheck_seg con _ s _ _ _ rfl
      · rw [if_neg hd] at h
        simp only [Prod.mk.injEq] at h
        obtain ⟨-, h2, h3⟩ := h
        rw [← h2, ← h3]
        exact seg_comp _ _ _ _ _ (FCCheck_seg con _ s _ _ _ rfl) (ih _ _ _ _ rfl)
    · rw [if_neg hn] at h
      exact ih s b ps s1 h

theorem prop_FC_seg (csp : CSP) (newVar : Option VarId) (s : PState) (b : Bool)
    (ps : List (VarId × Val)) (s1 : PState)
    (h : prop_FC csp newVar s = (b, ps, s1)) : PruneSeg s ps s1 :=
  prop_FC_loop_seg (selectedCons csp newVar) s b ps s1 h

theorem FCCheck_vals_dwo (c : Constraint) (x : VarId) :
    ∀ (vals : List Val) (s : PState) (ps : List (VarId × Val)) (s1 : PState),
      FCCheck_vals c x vals s = (true, ps, s1) →
      (curDom s x ≠ [] ∨ vals = []) →
      ∃ ps0 p, ps = ps0 ++ [p] ∧ p.1 = x ∧ curDom s1 p.1 = [] := by
  intro vals
  induction vals with
  | nil =>
    intro s ps s1 h _
    simp only [FCCheck_vals, Prod.mk.injEq] at h
    exact absurd h.1 (by simp)
  | cons d rest ih =>
    intro s ps s1 h hor
    have hne : curDom s x ≠ [] := by
      rcases hor with h1 | h1
      · exact h1
      · exact absurd h1 (by simp)
    simp only [FCCheck_vals] at h
    by_cases hchk : checkVals c (substVals c x d s) = false
    · rw [if_pos hchk] at h
      by_cases hemp : curDom (prune s x d) x = []
      · rw [if_pos hemp] at h
        simp only [Prod.mk.injEq] at h
        obtain ⟨-, h2, h3⟩ := h
        exact ⟨[], (x, d), h2.symm, rfl, h3 ▸ hemp⟩
      · rw [if_neg hemp] at h
        have hfst : (FCCheck_vals c x rest (prune s x d)).1 = true := by
          have := congrArg Prod.fst h
          simpa using this
        have heq : FCCheck_vals c x rest (prune s x d) =
            (true, (FCCheck_vals c x rest (prune s x d)).2.1,
              (FCCheck_vals c x rest (prune s x d)).2.2) := by
          rw [← hfst]
        obtain ⟨ps0, p, hp1, hp2, hp3⟩ :=
          ih (prune s x d) _ _ heq (Or.inl hemp)
        have h2 : (x, d) :: (FCCheck_vals c x rest (prune s x d)).2.1 = ps := by
          have := congrArg (fun z => z.2.1) h
          simpa using this
        have h3 : (FCCheck_vals c x rest (prune s x d)).2.2 = s1 := by
          have := congrArg (fun z => z.2.2) h
          simpa using this
        refine ⟨(x, d) :: ps0, p, ?_, hp2, h3 ▸ hp3⟩
        rw [← h2, hp1]
        rfl
    · rw [if_neg hchk] at h
      rw [if_neg hne] at h
      exact ih s ps s1 h (Or.inl hne)

theorem prop_FC_loop_dwo :
    ∀ (cl : List Constraint) (s : PState) (ps : List (VarId × Val)) (s1 : PState),
      prop_FC_loop cl s = (false, ps, s1) →
      ∃ ps0 p, ps = ps0 ++ [p] ∧ curDom s1 p.1 = [] := by
  intro cl
  induction cl with
  | nil =>
    intro s ps s1 h
    simp only [prop_FC_loop, Prod.mk.injEq] at h
    exact absurd h.1 (by simp)
  | cons con rest ih =>
    intro s ps s1 h
    simp only [prop_FC_loop] at h
    by_cases hn : nUnasgn s con = 1
    · rw [if_pos hn] at h
      by_cases hd : (FCCheck con ((unasgnVars s con).headD 0) s).1 = true
      · rw [if_pos hd] at h
        simp only [Prod.mk.injEq] at h
        obtain ⟨-, h2, h3⟩ := h
        have heq : FCCheck con ((unasgnVars s con).headD 0) s =
            (true, (FCCheck con ((unasgnVars s con).headD 0) s).2.1,
              (FCCheck con ((unasgnVars s con).headD 0) s).2.2) := by
          rw [← hd]
        have hor : curDom s ((unasgnVars s con).headD 0) ≠ [] ∨
            curDom s ((unasgnVars s con).headD 0) = [] := by
          tauto
        obtain ⟨ps0, p, hp1, hp2, hp3⟩ :=
          FCCheck_vals_dwo con _ _ s _ _ heq (hor.imp id id)
        exact ⟨ps0, p, by rw [← h2, hp1], by rw [← h3]; exact hp3⟩
      · rw [if_neg hd] at h
        simp only [Prod.mk.injEq] at h
        obtain ⟨h1, h2, h3⟩ := h
        have heq : prop_FC_loop rest (FCCheck con ((unasgnVars s con).headD 0) s).2.2 =
            (false, (prop_FC_loop rest (FCCheck con ((unasgnVars s con).headD 0) s).2.2).2.1,
              (prop_FC_loop rest (FCCheck con ((unasgnVars s con).headD 0) s).2.2).2.2) := by
          rw [← h1]
        obtain ⟨ps0, p, hp1, hp3⟩ := ih _ _ _ heq
        refine ⟨(FCCheck con ((unasgnVars s con).headD 0) s).2.1 ++ ps0, p, ?_, ?_⟩
        · rw [← h2, hp1, List.append_assoc]
        · rw [← h3]; exact hp3
    · rw [if_neg hn] at h
      exact ih s ps s1 h

theorem FCCheck_vals_sound (c : Constraint) (x : VarId) :
    ∀ (vals : List Val) (s : PState),
      ∀ p ∈ (FCCheck_vals c x vals s).2.1,
        p.1 = x ∧ checkVals c (substVals c x p.2 s) = false := by
  intro vals
  induction vals with
  | nil =>
    intro s p hp
    simp [FCCheck_vals] at hp
  | cons d rest ih =>
    intro s p hp
    simp only [FCCheck_vals] at hp
    by_cases hchk : checkVals c (substVals c x d s) = false
    · rw [if_pos hchk] at hp
      by_cases hemp : curDom (prune s x d) x = []
      · rw [if_pos hemp] at hp
        simp only [List.mem_singleton] at hp
        subst hp
        exact ⟨rfl, hchk⟩
      · rw [if_neg hemp] at hp
        simp only [List.mem_cons] at hp
        rcases hp with hp | hp
        · subst hp
          exact ⟨rfl, hchk⟩
        · exact ih (prune s x d) p hp
    · rw [if_neg hchk] at hp
      by_cases hemp : curDom s x = []
      · rw [if_pos hemp] at hp
        simp at hp
      · rw [if_neg hemp] at hp
        exact ih s p hp

theorem nUnasgn_asn_eq (s1 s2 : PState) (c : Constraint) (h : s1.asn = s2.asn) :
    nUnasgn s1 c = nUnasgn s2 c := by
  unfold nUnasgn
  rw [h]

theorem unasgnVars_asn_eq (s1 s2 : PState) (c : Constraint) (h : s1.asn = s2.asn) :
    unasgnVars s1 c = unasgnVars s2 c := by
  unfold unasgnVars
  rw [h]

theorem unasgnVars_eq_of_one (s : PState) (c : Constraint) (h : nUnasgn s c = 1) :
    unasgnVars s c = [(unasgnVars s c).headD 0] := by
  have hl : (unasgnVars s c).length = 1 := h
  obtain ⟨a, ha⟩ := List.length_eq_one.mp hl
  rw [ha]
  rfl

theorem selectedCons_subset (csp : CSP) (newVar : Option VarId) (c : Constraint)
    (h : c ∈ selectedCons csp newVar) : c ∈ csp.cons := by
  cases newVar with
  | none => exact h
  | some v => exact List.mem_of_mem_filter h

theorem FCCheck_seg_proj (c : Constraint) (x : VarId) (s : PState) :
    PruneSeg s (FCCheck c x s).2.1 (FCCheck c x s).2.2 :=
  FCCheck_seg c x s _ _ _ rfl

theorem prop_FC_loop_seg_proj (cl : List Constraint) (s : PState) :
    PruneSeg s (prop_FC_loop cl s).2.1 (prop_FC_loop cl s).2.2 :=
  prop_FC_loop_seg cl s _ _ _ rfl

theorem prop_FC_loop_sound :
    ∀ (cl : List Constraint) (s : PState),
      ∀ p ∈ (prop_FC_loop cl s).2.1,
        ∃ con ∈ cl, nUnasgn s con = 1 ∧ unasgnVars s con = [p.1] ∧
          checkVals con (substVals con p.1 p.2 s) = false := by
  intro cl
  induction cl with
  | nil =>
    intro s p hp
    simp [prop_FC_loop] at hp
  | cons con rest ih =>
    intro s p hp
    simp only [prop_FC_loop] at hp
    by_cases hn : nUnasgn s con = 1
    · rw [if_pos hn] at hp
      by_cases hd : (FCCheck con ((unasgnVars s con).headD 0) s).1 = true
      · rw [if_pos hd] at hp
        obtain ⟨hpx, hpc⟩ := FCCheck_vals_sound con _ _ s p hp
        refine ⟨con, List.mem_cons_self _ _, hn, ?_, ?_⟩
        · rw [hpx]
          exact unasgnVars_eq_of_one s con hn
        · rw [hpx]
          exact hpc
      · rw [if_neg hd] at hp
        rw [List.mem_append] at hp
        rcases hp with hp | hp
        · obtain ⟨hpx, hpc⟩ := FCCheck_vals_sound con _ _ s p hp
          refine ⟨con, List.mem_cons_self _ _, hn, ?_, ?_⟩
          · rw [hpx]
            exact unasgnVars_eq_of_one s con hn
          · rw [hpx]
            exact hpc
        · obtain ⟨con2, hc2, hn2, hu2, hchk2⟩ := ih _ p hp
          have hasn : (FCCheck con ((unasgnVars s con).headD 0) s).2.2.asn = s.asn := by
            rw [(FCCheck_seg_proj con ((unasgnVars s con).headD 0) s).1]
            exact asn_applyPrunes ..
          refine ⟨con2, List.mem_cons_of_mem _ hc2, ?_, ?_, ?_⟩
          · rw [← nUnasgn_asn_eq _ s con2 hasn]
            exact hn2
          · rw [← unasgnVars_asn_eq _ s con2 hasn]
            exact hu2
          · rw [← substVals_asn_eq con2 p.1 p.2 _ s hasn]
            exact hchk2
    · rw [if_neg hn] at hp
      obtain ⟨con2, hc2, rest2⟩ := ih s p hp
      exact ⟨con2, List.mem_cons_of_mem _ hc2, rest2⟩

theorem count_le_of_nodup_sub (l m : List Val) (hnd : l.Nodup)
    (hsub : ∀ a ∈ l, a ∈ m) : ∀ a, l.count a ≤ m.count a := by
  intro a
  by_cases ha : a ∈ l
  · have h1 : l.count a ≤ 1 := List.nodup_iff_count_le_one.mp hnd a
    have h2 : 0 < m.count a := List.count_pos_iff.mpr (hsub a ha)
    omega
  · rw [List.count_eq_zero_of_not_mem ha]
    exact Nat.zero_le _

theorem FCCheck_vals_pass (c : Constraint) (x : VarId) :
    ∀ (vals : List Val) (s : PState),
      (∀ d ∈ vals, checkVals c (substVals c x d s) = true) →
      (curDom s x ≠ [] ∨ vals = []) →
      FCCheck_vals c x vals s = (false, [], s) := by
  intro vals
  induction vals with
  | nil =>
    intro s _ _
    rfl
  | cons d rest ih =>
    intro s hpass hor
    have hne : curDom s x ≠ [] := by
      rcases hor with h1 | h1
      · exact h1
      · exact absurd h1 (by simp)
    have hchk : ¬ checkVals c (substVals c x d s) = false := by
      rw [hpass d (List.mem_cons_self _ _)]
      simp
    simp only [FCCheck_vals]
    rw [if_neg hchk, if_neg hne]
    exact ih s (fun e he => hpass e (List.mem_cons_of_mem _ he)) (Or.inl hne)

theorem FCCheck_vals_post (c : Constraint) (x : VarId) :
    ∀ (vals : List Val) (s : PState),
      (FCCheck_vals c x vals s).1 = false →
      WFState s → vals.Nodup → (∀ a ∈ vals, a ∈ curDom s x) →
      ∀ e ∈ curDom (FCCheck_vals c x vals s).2.2 x, e ∈ vals →
        checkVals c (substVals c x e s) = true := by
  intro vals
  induction vals with
  | nil =>
    intro s _ _ _ _ e _ he
    simp at he
  | cons d rest ih =>
    intro s hb hwf hnd hsub e hemem hein
    simp only [FCCheck_vals] at hb hemem
    by_cases hchk : checkVals c (substVals c x d s) = false
    · rw [if_pos hchk] at hb hemem
      by_cases hemp : curDom (prune s x d) x = []
      · rw [if_pos hemp] at hb
        simp at hb
      · rw [if_neg hemp] at hb hemem
        simp only at hb hemem
        have hsub1 : ∀ a ∈ rest, a ∈ curDom (prune s x d) x := by
          intro a ha
          rw [curDom_prune, if_pos rfl]
          have haa : a ≠ d := by
            intro haa
            rw [haa] at ha
            exact (List.nodup_cons.mp hnd).1 ha
          exact (List.mem_erase_of_ne haa).mpr (hsub a (List.mem_cons_of_mem _ ha))
        have hcnt1 : ∀ a, rest.count a ≤ (curDom (prune s x d) x).count a :=
          count_le_of_nodup_sub rest _ (List.nodup_cons.mp hnd).2 hsub1
        have hrseg : PruneSeg (prune s x d)
            (FCCheck_vals c x rest (prune s x d)).2.1
            (FCCheck_vals c x rest (prune s x d)).2.2 :=
          FCCheck_vals_seg c x rest (prune s x d) _ _ _ rfl hcnt1
        rcases List.mem_cons.mp hein with hed | hed
        · exfalso
          have h1 : e ∈ curDom (prune s x d) x := by
            have h2 := hrseg.1
            rw [h2] at hemem
            exact mem_curDom_applyPrunes _ _ _ _ hemem
          rw [curDom_prune, if_pos rfl, hed] at h1
          exact (curDom_nodup s x hwf).not_mem_erase h1
        · exact ih (prune s x d) hb (WFState_prune s x d hwf)
            (List.nodup_cons.mp hnd).2 hsub1 e hemem hed
    · rw [if_neg hchk] at hb hemem
      have hne : ¬ curDom s x = [] := by
        intro hh
        exact absurd (hsub d (List.mem_cons_self _ _)) (by rw [hh]; simp)
      rw [if_neg hne] at hb hemem
      rcases List.mem_cons.mp hein with hed | hed
      · rw [hed]
        revert hchk
        cases checkVals c (substVals c x d s) <;> simp
      · exact ih s hb hwf (List.nodup_cons.mp hnd).2
          (fun a ha => hsub a (List.mem_cons_of_mem _ ha)) e hemem hed

theorem FCgood_mono (s s1 : PState) (c : Constraint) (ps : List (VarId × Val))
    (hseg : PruneSeg s ps s1)
    (h : nUnasgn s c = 1 →
      ∀ e ∈ curDom s ((unasgnVars s c).headD 0),
        checkVals c (substVals c ((unasgnVars s c).headD 0) e s) = true) :
    FCgood s1 c := by
  intro hn1 e he
  have hasn : s1.asn = s.asn := by
    rw [hseg.1]
    exact asn_applyPrunes ..
  have hx : (unasgnVars s1 c).headD 0 = (unasgnVars s c).headD 0 := by
    rw [unasgnVars_asn_eq s1 s c hasn]
  rw [hx] at he ⊢
  have hn0 : nUnasgn s c = 1 := by
    rw [← nUnasgn_asn_eq s1 s c hasn]
    exact hn1
  have he0 : e ∈ curDom s ((unasgnVars s c).headD 0) := by
    rw [hseg.1] at he
    exact mem_curDom_applyPrunes _ _ _ _ he
  rw [substVals_asn_eq c _ e s1 s hasn]
  exact h hn0 e he0

theorem prop_FC_loop_post :
    ∀ (cl : List Constraint) (s : PState) (ps : List (VarId × Val)) (s1 : PState),
      prop_FC_loop cl s = (true, ps, s1) → WFState s →
      ∀ con ∈ cl, FCgood s1 con := by
  intro cl
  induction cl with
  | nil =>
    intro s ps s1 h _ con hc
    simp at hc
  | cons con rest ih =>
    intro s ps s1 h hwf con2 hc2
    simp only [prop_FC_loop] at h
    by_cases hn : nUnasgn s con = 1
    · rw [if_pos hn] at h
      by_cases hd : (FCCheck con ((unasgnVars s con).headD 0) s).1 = true
      · rw [if_pos hd] at h
        simp only [Prod.mk.injEq] at h
        exact absurd h.1.symm (by simp)
      · rw [if_neg hd] at h
        simp only [Prod.mk.injEq] at h
        obtain ⟨h1, -, h3⟩ := h
        have hwf1 : WFState (FCCheck con ((unasgnVars s con).headD 0) s).2.2 := by
          rw [(FCCheck_seg_proj con ((unasgnVars s con).headD 0) s).1]
          exact WFState_applyPrunes _ _ hwf
        have hasn1 : (FCCheck con ((unasgnVars s con).headD 0) s).2.2.asn = s.asn := by
          rw [(FCCheck_seg_proj con ((unasgnVars s con).headD 0) s).1]
          exact asn_applyPrunes ..
        have hloop : prop_FC_loop rest (FCCheck con ((unasgnVars s con).headD 0) s).2.2 =
            (true,
              (prop_FC_loop rest (FCCheck con ((unasgnVars s con).headD 0) s).2.2).2.1,
              (prop_FC_loop rest (FCCheck con ((unasgnVars s con).headD 0) s).2.2).2.2) := by
          rw [← h1]
        rcases List.mem_cons.mp hc2 with hcc | hcc
        · subst hcc
          rw [← h3]
          refine FCgood_mono _ _ con2
            (prop_FC_loop rest (FCCheck con2 ((unasgnVars s con2).headD 0) s).2.2).2.1
            (prop_FC_loop_seg_proj rest _) ?_
          intro hnm e hem
          have hxm : (unasgnVars (FCCheck con2 ((unasgnVars s con2).headD 0) s).2.2 con2).headD 0 =
              (unasgnVars s con2).headD 0 := by
            rw [unasgnVars_asn_eq _ s con2 hasn1]
          rw [hxm] at hem ⊢
          have hb0 : (FCCheck con2 ((unasgnVars s con2).headD 0) s).1 = false := by
            revert hd
            cases (FCCheck con2 ((unasgnVars s con2).headD 0) s).1 <;> simp
          have hem0 : e ∈ curDom s ((unasgnVars s con2).headD 0) := by
            have h2 := (FCCheck_seg_proj con2 ((unasgnVars s con2).headD 0) s).1
            rw [h2] at hem
            exact mem_curDom_applyPrunes _ _ _ _ hem
          have hpass := FCCheck_vals_post con2 ((unasgnVars s con2).headD 0)
            (curDom s ((unasgnVars s con2).headD 0)) s hb0 hwf
            (curDom_nodup s _ hwf) (fun a ha => ha) e hem hem0
          rw [substVals_asn_eq con2 _ e _ s hasn1]
          exact hpass
        · have hres := ih (FCCheck con ((unasgnVars s con).headD 0) s).2.2 _ _ hloop hwf1
            con2 hcc
          rw [← h3]
          exact hres
    · rw [if_neg hn] at h
      rcases List.mem_cons.mp hc2 with hcc | hcc
      · subst hcc
        intro hn1
        exfalso
        have hseg := prop_FC_loop_seg rest s _ _ _ h
        have hasn : s1.asn = s.asn := by
          rw [hseg.1]
          exact asn_applyPrunes ..
        rw [nUnasgn_asn_eq s1 s con2 hasn] at hn1
        exact hn hn1
      · exact ih s ps s1 h hwf con2 hcc

theorem prop_FC_loop_pass :
    ∀ (cl : List Constraint) (s : PState),
      (∀ con ∈ cl, FCgood s con) → prop_FC_loop cl s = (true, [], s) := by
  intro cl
  induction cl with
  | nil =>
    intro s _
    rfl
  | cons con rest ih =>
    intro s hgood
    by_cases hn : nUnasgn s con = 1
    · have hfc : FCCheck con ((unasgnVars s con).headD 0) s = (false, [], s) := by
        unfold FCCheck
        apply FCCheck_vals_pass
        · exact fun d hd => hgood con (List.mem_cons_self _ _) hn d hd
        · by_cases hcd : curDom s ((unasgnVars s con).headD 0) = []
          · exact Or.inr hcd
          · exact Or.inl hcd
      simp only [prop_FC_loop]
      rw [if_pos hn, hfc]
      rw [ih s fun c hc => hgood c (List.mem_cons_of_mem _ hc)]
      simp
    · simp only [prop_FC_loop]
      rw [if_neg hn]
      exact ih s fun c hc => hgood c (List.mem_cons_of_mem _ hc)

/-! ### GAC queue and measure lemmas -/

theorem foldl_push_mem (l : List Nat) :
    ∀ (q : List Nat) (i : Nat), i ∈ q →
      i ∈ l.foldl (fun q2 ci => if ci ∈ q2 then q2 else gacPush ci q2) q := by
  induction l with
  | nil => exact fun q i h => h
  | cons a l ih =>
    intro q i h
    simp only [List.foldl_cons]
    by_cases ha : a ∈ q
    · rw [if_pos ha]
      exact ih q i h
    · rw [if_neg ha]
      exact ih _ i (List.mem_cons_of_mem _ h)

theorem foldl_push_mem_of_mem (l : List Nat) :
    ∀ (q : List Nat) (i : Nat), i ∈ l →
      i ∈ l.foldl (fun q2 ci => if ci ∈ q2 then q2 else gacPush ci q2) q := by
  induction l with
  | nil =>
    intro q i h
    simp at h
  | cons a l ih =>
    intro q i h
    simp only [List.foldl_cons]
    rcases List.mem_cons.mp h with h1 | h1
    · subst h1
      by_cases ha : i ∈ q
      · rw [if_pos ha]
        exact foldl_push_mem l q i ha
      · rw [if_neg ha]
        exact foldl_push_mem l _ i (List.mem_cons_self _ _)
    · by_cases ha : a ∈ q
      · rw [if_pos ha]
        exact ih q i h1
      · rw [if_neg ha]
        exact ih _ i h1

theorem enqueueCons_mem (csp : CSP) (v : VarId) (q : List Nat) (i : Nat)
    (h : i ∈ q) : i ∈ enqueueCons csp v q :=
  foldl_push_mem _ q i h

theorem enqueueCons_mem_cons (csp : CSP) (v : VarId) (q : List Nat) (i : Nat)
    (h : i ∈ consWithVar csp v) : i ∈ enqueueCons csp v q :=
  foldl_push_mem_of_mem _ q i h

theorem foldl_push_length (l : List Nat) :
    ∀ q : List Nat,
      (l.foldl (fun q2 ci => if ci ∈ q2 then q2 else gacPush ci q2) q).length ≤
        q.length + l.length := by
  induction l with
  | nil => exact fun q => by simp
  | cons a l ih =>
    intro q
    simp only [List.foldl_cons, List.length_cons]
    by_cases ha : a ∈ q
    · rw [if_pos ha]
      have := ih q
      omega
    · rw [if_neg ha]
      have h1 := ih (gacPush a q)
      have h2 : (gacPush a q).length = q.length + 1 := rfl
      omega

theorem consWithVar_length (csp : CSP) (v : VarId) :
    (consWithVar csp v).length ≤ csp.cons.length := by
  unfold consWithVar
  calc (List.filter _ (List.range csp.cons.length)).length
      ≤ (List.range csp.cons.length).length := List.length_filter_le _ _
    _ = csp.cons.length := List.length_range _

theorem enqueueCons_length (csp : CSP) (v : VarId) (q : List Nat) :
    (enqueueCons csp v q).length ≤ q.length + csp.cons.length := by
  have h1 := foldl_push_length (consWithVar csp v) q
  have h2 := consWithVar_length csp v
  unfold enqueueCons
  omega

theorem consWithVar_mem (csp : CSP) (v : VarId) (i : Nat)
    (h1 : i < csp.cons.length) (h2 : v ∈ (csp.cons.getD i default).scope) :
    i ∈ consWithVar csp v := by
  unfold consWithVar
  rw [List.mem_filter]
  exact ⟨List.mem_range.mpr h1, by simpa using h2⟩

theorem sum_pruneDoms_le (doms : List (VarId × List Val)) (v : VarId) (d : Val) :
    ((pruneDoms doms v d).map fun p => p.2.length).sum ≤
      (doms.map fun p => p.2.length).sum := by
  induction doms with
  | nil => simp [pruneDoms]
  | cons p rest ih =>
    rw [pruneDoms_cons]
    simp only [List.map_cons, List.sum_cons]
    have hhead : (if p.1 = v then (p.1, p.2.erase d) else p).2.length ≤ p.2.length := by
      split
    
      · exact (List.erase_sublist _ _).length_le
      · exact le_refl _
    omega

theorem sum_pruneDoms_lt (doms : List (VarId × List Val)) (v : VarId) (d : Val)
    (h : d ∈ lookupDom doms v) :
    ((pruneDoms doms v d).map fun p => p.2.length).sum + 1 ≤
      (doms.map fun p => p.2.length).sum := by
  induction doms with
  | nil => simp at h
  | cons p rest ih =>
    rw [pruneDoms_cons]
    simp only [List.map_cons, List.sum_cons]
    rw [lookupDom_cons] at h
    by_cases hp : p.1 = v
    · rw [if_pos hp]
      rw [if_pos hp] at h
      have hlen : (p.2.erase d).length + 1 = p.2.length := by
        rw [List.length_erase_of_mem h]
        have : 0 < p.2.length := List.length_pos.mpr (List.ne_nil_of_mem h)
        omega
      have htail := sum_pruneDoms_le rest v d
      simp only at htail ⊢
      omega
    · rw [if_neg hp]
      rw [if_neg hp] at h
      have := ih h
      omega

theorem domSize_prune_le (s : PState) (v : VarId) (d : Val) :
    domSize (prune s v d) ≤ domSize s :=
  sum_pruneDoms_le s.doms v d

theorem domSize_prune_lt (s : PState) (v : VarId) (d : Val) (h : d ∈ curDom s v) :
    domSize (prune s v d) + 1 ≤ domSize s :=
  sum_pruneDoms_lt s.doms v d h

theorem gacPop_eq (q : List Nat) (ci : Nat) (q0 : List Nat)
    (h : gacPop q = some (ci, q0)) : q = q0 ++ [ci] := by
  cases q with
  | nil => simp [gacPop] at h
  | cons a rest =>
    simp only [gacPop, Option.some.injEq, Prod.mk.injEq] at h
    obtain ⟨h1, h2⟩ := h
    rw [← h1, ← h2]
    exact (List.dropLast_append_getLast (List.cons_ne_nil a rest)).symm

theorem gacPop_none (q : List Nat) (h : gacPop q = none) : q = [] := by
  cases q with
  | nil => rfl
  | cons a rest => simp [gacPop] at h

theorem seedQueue_eq_reverse (l : List Nat) : seedQueue l = l.reverse := by
  have haux : ∀ (l2 : List Nat) (acc : List Nat),
      l2.foldl (fun q ci => gacPush ci q) acc = l2.reverse ++ acc := by
    intro l2
    induction l2 with
    | nil => intro acc; simp
    | cons a l2 ih =>
      intro acc
      simp only [List.foldl_cons, List.reverse_cons]
      rw [ih (gacPush a acc)]
      simp [gacPush, List.append_assoc]
  unfold seedQueue
  rw [haux l []]
  simp

theorem gacScanVals_ok (csp : CSP) (c : Constraint) (v : VarId) :
    ∀ (vals : List Val) (s : PState) (q : List Nat) (ps : List (VarId × Val))
      (s1 : PState) (q1 : List Nat),
      gacScanVals csp c v vals s q = .ok ps s1 q1 →
      (∀ a, vals.count a ≤ (curDom s v).count a) →
      PruneSeg s ps s1 ∧ (∀ p ∈ ps, p.1 = v) ∧
        domSize s1 + ps.length ≤ domSize s ∧
        q1.length ≤ q.length + csp.cons.length * ps.length ∧
        (∀ i ∈ q, i ∈ q1) ∧
        (∀ p ∈ ps, ∀ i ∈ consWithVar csp p.1, i ∈ q1) ∧
        (ps = [] → s1 = s ∧ q1 = q ∧ ∀ d ∈ vals, hasSupport s c v d = true) := by
  intro vals
  induction vals with
  | nil =>
    intro s q ps s1 q1 h hcnt
    simp only [gacScanVals, ScanRes.ok.injEq] at h
    obtain ⟨h1, h2, h3⟩ := h
    subst h1
    subst h2
    subst h3
    refine ⟨seg_nil s, by simp, by simp, by simp, fun i hi => hi, by simp, ?_⟩
    exact fun _ => ⟨rfl, rfl, fun d hd => absurd hd (by simp)⟩
  | cons d rest ih =>
    intro s q ps s1 q1 h hcnt
    simp only [gacScanVals] at h
    by_cases hsup : hasSupport s c v d = false
    · rw [if_pos hsup] at h
      by_cases hemp : curDom (prune s v d) v = []
      · rw [if_pos hemp] at h
        simp at h
      · rw [if_neg hemp] at h
        cases hrec : gacScanVals csp c v rest (prune s v d) (enqueueCons csp v q) with
        | dwo ps' s2 =>
          rw [hrec] at h
          simp at h
        | ok ps' s2 q2 =>
          rw [hrec] at h
          simp only [ScanRes.ok.injEq] at h
          obtain ⟨h1, h2, h3⟩ := h
          subst h1
          subst h2
          subst h3
          have hd_mem : d ∈ curDom s v := mem_of_count_pos_head d rest _ hcnt
          have hcnt1 : ∀ a, rest.count a ≤ (curDom (prune s v d) v).count a := by
            intro a
            rw [curDom_prune, if_pos rfl]
            exact count_erase_of_count_le d rest _ hcnt a
          obtain ⟨ihseg, ihv, ihsize, ihqlen, ihmono, ihpush, ihnil⟩ :=
            ih _ _ _ _ _ hrec hcnt1
          refine ⟨?_, ?_, ?_, ?_, ?_, ?_, ?_⟩
          · exact seg_comp _ _ _ _ _ (seg_single s v d hd_mem) ihseg
          · intro p hp
            rcases List.mem_cons.mp hp with hph | hph
            · subst hph
              rfl
            · exact ihv p hph
          · have hplt := domSize_prune_lt s v d hd_mem
            simp only [List.length_cons]
            omega
          · have he := enqueueCons_length csp v q
            simp only [List.length_cons, Nat.mul_succ]
            omega
          · intro i hi
            exact ihmono i (enqueueCons_mem csp v q i hi)
          · intro p hp i hip
            rcases List.mem_cons.mp hp with hph | hph
            · subst hph
              exact ihmono i (enqueueCons_mem_cons csp v q i hip)
            · exact ihpush p hph i hip
          · intro hps
            exact absurd hps (by simp)
    · rw [if_neg hsup] at h
      obtain ⟨ihseg, ihv, ihsize, ihqlen, ihmono, ihpush, ihnil⟩ :=
        ih s q ps s1 q1 h fun a => le_trans (count_tail_le d a rest) (hcnt a)
      refine ⟨ihseg, ihv, ihsize, ihqlen, ihmono, ihpush, ?_⟩
      intro hps
      obtain ⟨hs, hq, hsupp⟩ := ihnil hps
      refine ⟨hs, hq, ?_⟩
      intro e he
      rcases List.mem_cons.mp he with heh | heh
      · subst heh
        revert hsup
        cases hasSupport s c v e <;> simp
      · exact hsupp e heh

theorem gacScanVals_dwo (csp : CSP) (c : Constraint) (v : VarId) :
    ∀ (vals : List Val) (s : PState) (q : List Nat) (ps : List (VarId × Val))
      (s1 : PState),
      gacScanVals csp c v vals s q = .dwo ps s1 →
      (∀ a, vals.count a ≤ (curDom s v).count a) →
      PruneSeg s ps s1 ∧ (∀ p ∈ ps, p.1 = v) ∧
        ∃ ps0 p, ps = ps0 ++ [p] ∧ curDom s1 p.1 = [] := by
  intro vals
  induction vals with
  | nil =>
    intro s q ps s1 h hcnt
    simp [gacScanVals] at h
  | cons d rest ih =>
    intro s q ps s1 h hcnt
    simp only [gacScanVals] at h
    by_cases hsup : hasSupport s c v d = false
    · rw [if_pos hsup] at h
      by_cases hemp : curDom (prune s v d) v = []
      · rw [if_pos hemp] at h
        simp only [ScanRes.dwo.injEq] at h
        obtain ⟨h1, h2⟩ := h
        subst h1
        subst h2
        have hd_mem : d ∈ curDom s v := mem_of_count_pos_head d rest _ hcnt
        refine ⟨seg_single s v d hd_mem, ?_, [], (v, d), rfl, hemp⟩
        intro p hp
        rw [List.mem_singleton] at hp
        subst hp
        rfl
      · rw [if_neg hemp] at h
        cases hrec : gacScanVals csp c v rest (prune s v d) (enqueueCons csp v q) with
        | ok ps' s2 q2 =>
          rw [hrec] at h
          simp at h
        | dwo ps' s2 =>
          rw [hrec] at h
          simp only [ScanRes.dwo.injEq] at h
          obtain ⟨h1, h2⟩ := h
          subst h1
          subst h2
          have hd_mem : d ∈ curDom s v := mem_of_count_pos_head d rest _ hcnt
          have hcnt1 : ∀ a, rest.count a ≤ (curDom (prune s v d) v).count a := by
            intro a
            rw [curDom_prune, if_pos rfl]
            exact count_erase_of_count_le d rest _ hcnt a
          obtain ⟨ihseg, ihv, ps0, p, hp1, hp2⟩ := ih _ _ _ _ hrec hcnt1
          refine ⟨?_, ?_, (v, d) :: ps0, p, ?_, hp2⟩
          · exact seg_comp _ _ _ _ _ (seg_single s v d hd_mem) ihseg
          · intro p2 hp2m
            rcases List.mem_cons.mp hp2m with hph | hph
            · subst hph
              rfl
            · exact ihv p2 hph
          · rw [hp1]
            rfl
    · rw [if_neg hsup] at h
      exact ih s q ps s1 h fun a => le_trans (count_tail_le d a rest) (hcnt a)

theorem gacScanScope_ok (csp : CSP) (c : Constraint) :
    ∀ (vars : List VarId) (s : PState) (q : List Nat) (ps : List (VarId × Val))
      (s1 : PState) (q1 : List Nat),
      gacScanScope csp c vars s q = .ok ps s1 q1 →
      PruneSeg s ps s1 ∧ (∀ p ∈ ps, p.1 ∈ vars) ∧
        domSize s1 + ps.length ≤ domSize s ∧
        q1.length ≤ q.length + csp.cons.length * ps.length ∧
        (∀ i ∈ q, i ∈ q1) ∧
        (∀ p ∈ ps, ∀ i ∈ consWithVar csp p.1, i ∈ q1) ∧
        (ps = [] → s1 = s ∧ q1 = q ∧
          ∀ v ∈ vars, ∀ d ∈ curDom s v, hasSupport s c v d = true) := by
  intro vars
  induction vars with
  | nil =>
    intro s q ps s1 q1 h
    simp only [gacScanScope, ScanRes.ok.injEq] at h
    obtain ⟨h1, h2, h3⟩ := h
    subst h1
    subst h2
    subst h3
    refine ⟨seg_nil s, by simp, by simp, by simp, fun i hi => hi, by simp, ?_⟩
    exact fun _ => ⟨rfl, rfl, fun v hv => absurd hv (by simp)⟩
  | cons v vrest ih =>
    intro s q ps s1 q1 h
    simp only [gacScanScope] at h
    cases hv : gacScanVals csp c v (curDom s v) s q with
    | dwo ps' s2 =>
      rw [hv] at h
      simp at h
    | ok ps' s2 q2 =>
      rw [hv] at h
      simp only at h
      cases hr : gacScanScope csp c vrest s2 q2 with
      | dwo ps2 s3 =>
        rw [hr] at h
        simp at h
      | ok ps2 s3 q3 =>
        rw [hr] at h
        simp only [ScanRes.ok.injEq] at h
        obtain ⟨h1, h2, h3⟩ := h
        subst h1
        subst h2
        subst h3
        obtain ⟨vseg, vv, vsize, vqlen, vmono, vpush, vnil⟩ :=
          gacScanVals_ok csp c v (curDom s v) s q ps' s2 q2 hv fun a => le_refl _
        obtain ⟨rseg, rv, rsize, rqlen, rmono, rpush, rnil⟩ :=
          ih s2 q2 ps2 s3 q3 hr
        refine ⟨?_, ?_, ?_, ?_, ?_, ?_, ?_⟩
        · exact seg_comp _ _ _ _ _ vseg rseg
        · intro p hp
          rcases List.mem_append.mp hp with hph | hph
          · exact (vv p hph) ▸ List.mem_cons_self _ _
          · exact List.mem_cons_of_mem _ (rv p hph)
        · rw [List.length_append]
          omega
        · rw [List.length_append, Nat.mul_add]
          omega
        · intro i hi
          exact rmono i (vmono i hi)
        · intro p hp i hip
          rcases List.mem_append.mp hp with hph | hph
          · exact rmono i (vpush p hph i hip)
          · exact rpush p hph i hip
        · intro hps
          obtain ⟨hps1, hps2⟩ := List.append_eq_nil.mp hps
          obtain ⟨hs2, hq2, hsupp1⟩ := vnil hps1
          subst hs2
          subst hq2
          obtain ⟨hs3, hq3, hsupp2⟩ := rnil hps2
          refine ⟨hs3, hq3, ?_⟩
          intro v2 hv2 d hd
          rcases List.mem_cons.mp hv2 with hvh | hvh
          · subst hvh
            exact hsupp1 d hd
          · exact hsupp2 v2 hvh d hd

theorem gacScanScope_dwo (csp : CSP) (c : Constraint) :
    ∀ (vars : List VarId) (s : PState) (q : List Nat) (ps : List (VarId × Val))
      (s1 : PState),
      gacScanScope csp c vars s q = .dwo ps s1 →
      PruneSeg s ps s1 ∧ (∀ p ∈ ps, p.1 ∈ vars) ∧
        ∃ ps0 p, ps = ps0 ++ [p] ∧ curDom s1 p.1 = [] := by
  intro vars
  induction vars with
  | nil =>
    intro s q ps s1 h
    simp [gacScanScope] at h
  | cons v vrest ih =>
    intro s q ps s1 h
    simp only [gacScanScope] at h
    cases hv : gacScanVals csp c v (curDom s v) s q with
    | dwo ps' s2 =>
      rw [hv] at h
      simp only [ScanRes.dwo.injEq] at h
      obtain ⟨h1, h2⟩ := h
      subst h1
      subst h2
      obtain ⟨vseg, vv, hshape⟩ :=
        gacScanVals_dwo csp c v (curDom s v) s q ps' s2 hv fun a => le_refl _
      exact ⟨vseg, fun p hp => (vv p hp) ▸ List.mem_cons_self _ _, hshape⟩
    | ok ps' s2 q2 =>
      rw [hv] at h
      simp only at h
      cases hr : gacScanScope csp c vrest s2 q2 with
      | ok ps2 s3 q3 =>
        rw [hr] at h
        simp at h
      | dwo ps2 s3 =>
        rw [hr] at h
        simp only [ScanRes.dwo.injEq] at h
        obtain ⟨h1, h2⟩ := h
        subst h1
        subst h2
        obtain ⟨vseg, vv, vsize, vqlen, vmono, vpush, vnil⟩ :=
          gacScanVals_ok csp c v (curDom s v) s q ps' s2 q2 hv fun a => le_refl _
        obtain ⟨rseg, rv, ps0, p, hp1, hp2⟩ := ih s2 q2 ps2 s3 hr
        refine ⟨seg_comp _ _ _ _ _ vseg rseg, ?_, ps' ++ ps0, p, ?_, hp2⟩
        · intro p2 hp2m
          rcases List.mem_append.mp hp2m with hph | hph
          · exact (vv p2 hph) ▸ List.mem_cons_self _ _
          · exact List.mem_cons_of_mem _ (rv p2 hph)
        · rw [hp1, List.append_assoc]

theorem gacScanVals_noop (csp : CSP) (c : Constraint) (v : VarId) :
    ∀ (vals : List Val) (s : PState) (q : List Nat),
      (∀ d ∈ vals, hasSupport s c v d = true) →
      gacScanVals csp c v vals s q = .ok [] s q := by
  intro vals
  induction vals with
  | nil =>
    intro s q _
    rfl
  | cons d rest ih =>
    intro s q hsup
    have hd : ¬ hasSupport s c v d = false := by
      rw [hsup d (List.mem_cons_self _ _)]
      simp
    simp only [gacScanVals]
    rw [if_neg hd]
    exact ih s q fun e he => hsup e (List.mem_cons_of_mem _ he)

theorem gacScanScope_noop (csp : CSP) (c : Constraint) :
    ∀ (vars : List VarId) (s : PState) (q : List Nat),
      (∀ v ∈ vars, ∀ d ∈ curDom s v, hasSupport s c v d = true) →
      gacScanScope csp c vars s q = .ok [] s q := by
  intro vars
  induction vars with
  | nil =>
    intro s q _
    rfl
  | cons v vrest ih =>
    intro s q hsup
    have h1 := gacScanVals_noop csp c v (curDom s v) s q
      fun d hd => hsup v (List.mem_cons_self _ _) d hd
    have h2 := ih s q fun v2 hv2 => hsup v2 (List.mem_cons_of_mem _ hv2)
    simp only [gacScanScope]
    rw [h1]
    simp only
    rw [h2]
    rfl

theorem GACfuel_seg (csp : CSP) :
    ∀ (fuel : Nat) (q : List Nat) (s : PState) (r : Bool × List (VarId × Val) × PState),
      GACfuel csp fuel q s = some r → PruneSeg s r.2.1 r.2.2 := by
  intro fuel
  induction fuel with
  | zero =>
    intro q s r h
    simp [GACfuel] at h
  | succ fuel ih =>
    intro q s r h
    simp only [GACfuel] at h
    cases hpop : gacPop q with
    | none =>
      rw [hpop] at h
      simp only [Option.some.injEq] at h
      rw [← h]
      exact seg_nil s
    | some p =>
      obtain ⟨ci, q0⟩ := p
      rw [hpop] at h
      simp only at h
      cases hscan : gacScanScope csp (csp.cons.getD ci default)
          (csp.cons.getD ci default).scope s q0 with
      | dwo ps s2 =>
        rw [hscan] at h
        simp only [Option.some.injEq] at h
        rw [← h]
        exact (gacScanScope_dwo csp _ _ s q0 ps s2 hscan).1
      | ok ps s2 q2 =>
        rw [hscan] at h
        simp only at h
        cases hrec : GACfuel csp fuel q2 s2 with
        | none =>
          rw [hrec] at h
          simp at h
        | some r2 =>
          rw [hrec] at h
          simp only [Option.some.injEq] at h
          rw [← h]
          exact seg_comp _ _ _ _ _
            (gacScanScope_ok csp _ _ s q0 ps s2 q2 hscan).1 (ih q2 s2 r2 hrec)

theorem GACfuel_dwo_shape (csp : CSP) :
    ∀ (fuel : Nat) (q : List Nat) (s : PState) (ps : List (VarId × Val)) (s1 : PState),
      GACfuel csp fuel q s = some (true, ps, s1) →
      ∃ ps0 p, ps = ps0 ++ [p] ∧ curDom s1 p.1 = [] := by
  intro fuel
  induction fuel with
  | zero =>
    intro q s ps s1 h
    simp [GACfuel] at h
  | succ fuel ih =>
    intro q s ps s1 h
    simp only [GACfuel] at h
    cases hpop : gacPop q with
    | none =>
      rw [hpop] at h
      simp only [Option.some.injEq, Prod.mk.injEq] at h
      exact absurd h.1 (by simp)
    | some p =>
      obtain ⟨ci, q0⟩ := p
      rw [hpop] at h
      simp only at h
      cases hscan : gacScanScope csp (csp.cons.getD ci default)
          (csp.cons.getD ci default).scope s q0 with
      | dwo ps2 s2 =>
        rw [hscan] at h
        simp only [Option.some.injEq, Prod.mk.injEq] at h
        obtain ⟨-, h2, h3⟩ := h
        obtain ⟨-, -, hshape⟩ := gacScanScope_dwo csp _ _ s q0 ps2 s2 hscan
        obtain ⟨ps0, pl, hp1, hp2⟩ := hshape
        exact ⟨ps0, pl, by rw [← h2, hp1], by rw [← h3]; exact hp2⟩
      | ok ps2 s2 q2 =>
        rw [hscan] at h
        simp only at h
        cases hrec : GACfuel csp fuel q2 s2 with
        | none =>
          rw [hrec] at h
          simp at h
        | some r2 =>
          rw [hrec] at h
          simp only [Option.some.injEq, Prod.mk.injEq] at h
          obtain ⟨h1, h2, h3⟩ := h
          have hrec2 : GACfuel csp fuel q2 s2 = some (true, r2.2.1, r2.2.2) := by
            rw [hrec, ← h1]
          obtain ⟨ps0, pl, hp1, hp2⟩ := ih q2 s2 r2.2.1 r2.2.2 hrec2
          refine ⟨ps2 ++ ps0, pl, ?_, by rw [← h3]; exact hp2⟩
          rw [← h2, hp1, List.append_assoc]

theorem GACfuel_suff (csp : CSP) :
    ∀ (fuel : Nat) (q : List Nat) (s : PState),
      gacBound csp q s ≤ fuel → (GACfuel csp fuel q s).isSome = true := by
  intro fuel
  induction fuel with
  | zero =>
    intro q s h
    unfold gacBound at h
    omega
  | succ fuel ih =>
    intro q s h
    simp only [GACfuel]
    cases hpop : gacPop q with
    | none => simp
    | some p =>
      obtain ⟨ci, q0⟩ := p
      simp only
      have hqlen : q0.length + 1 = q.length := by
        have := gacPop_eq q ci q0 hpop
        rw [this, List.length_append]
        simp
      cases hscan : gacScanScope csp (csp.cons.getD ci default)
          (csp.cons.getD ci default).scope s q0 with
      | dwo ps s2 => simp
      | ok ps s2 q2 =>
        simp only
        obtain ⟨sseg, sv, hsize, hql, smono, spush, snil⟩ :=
          gacScanScope_ok csp _ _ s q0 ps s2 q2 hscan
        have hb : gacBound csp q2 s2 ≤ fuel := by
          by_cases hps : ps = []
          · obtain ⟨hs, hq, -⟩ := snil hps
            subst hs
            subst hq
            unfold gacBound at h ⊢
            omega
          · have hL : 1 ≤ ps.length := List.length_pos.mpr hps
            have e3 : (domSize s2 + ps.length) * (csp.cons.length + 1) ≤
                domSize s * (csp.cons.length + 1) :=
              Nat.mul_le_mul_right _ hsize
            have e4 : (domSize s2 + ps.length) * (csp.cons.length + 1) =
                domSize s2 * (csp.cons.length + 1) +
                  ps.length * (csp.cons.length + 1) := Nat.add_mul ..
            have e1 : ps.length * (csp.cons.length + 1) =
                ps.length * csp.cons.length + ps.length := Nat.mul_succ ..
            have e2 : csp.cons.length * ps.length = ps.length * csp.cons.length :=
              Nat.mul_comm ..
            unfold gacBound at h ⊢
            omega
        have hsome := ih q2 s2 hb
        cases hrec : GACfuel csp fuel q2 s2 with
        | none =>
          rw [hrec] at hsome
          simp at hsome
        | some r2 => simp

theorem GACfuel_fixpoint (csp : CSP) :
    ∀ (fuel : Nat) (q : List Nat) (s : PState) (ps : List (VarId × Val)) (s1 : PState),
      GACfuel csp fuel q s = some (false, ps, s1) →
      (∀ i, i < csp.cons.length → i ∉ q →
        gacConsistent s (csp.cons.getD i default)) →
      ∀ i, i < csp.cons.length → gacConsistent s1 (csp.cons.getD i default) := by
  intro fuel
  induction fuel with
  | zero =>
    intro q s ps s1 h
    simp [GACfuel] at h
  | succ fuel ih =>
    intro q s ps s1 h hinv
    simp only [GACfuel] at h
    cases hpop : gacPop q with
    | none =>
      rw [hpop] at h
      simp only [Option.some.injEq, Prod.mk.injEq] at h
      obtain ⟨-, -, h3⟩ := h
      intro i hlt
      rw [← h3]
      exact hinv i hlt (by rw [gacPop_none q hpop]; simp)
    | some p =>
      obtain ⟨ci, q0⟩ := p
      rw [hpop] at h
      simp only at h
      cases hscan : gacScanScope csp (csp.cons.getD ci default)
          (csp.cons.getD ci default).scope s q0 with
      | dwo ps2 s2 =>
        rw [hscan] at h
        simp only [Option.some.injEq, Prod.mk.injEq] at h
        exact absurd h.1 (by simp)
      | ok ps2 s2 q2 =>
        rw [hscan] at h
        simp only at h
        cases hrec : GACfuel csp fuel q2 s2 with
        | none =>
          rw [hrec] at h
          simp at h
        | some r2 =>
          rw [hrec] at h
          simp only [Option.some.injEq, Prod.mk.injEq] at h
          obtain ⟨h1, -, h3⟩ := h
          obtain ⟨sseg, sv, hsize, hql, smono, spush, snil⟩ :=
            gacScanScope_ok csp _ _ s q0 ps2 s2 q2 hscan
          have hinv2 : ∀ i, i < csp.cons.length → i ∉ q2 →
              gacConsistent s2 (csp.cons.getD i default) := by
            intro i hlt hq2
            have hiq0 : i ∉ q0 := fun hh => hq2 (smono i hh)
            by_cases hic : i = ci
            · subst hic
              by_cases hps : ps2 = []
              · obtain ⟨hs, hq, hsupp⟩ := snil hps
                rw [hs]
                intro v hv d hd
                exact hsupp v hv d hd
              · exfalso
                obtain ⟨pl, hpl⟩ := List.exists_mem_of_ne_nil ps2 hps
                have hin : i ∈ consWithVar csp pl.1 :=
                  consWithVar_mem csp pl.1 i hlt (sv pl hpl)
                exact hq2 (spush pl hpl i hin)
            · have hiq : i ∉ q := by
                rw [gacPop_eq q ci q0 hpop]
                intro hh
                rcases List.mem_append.mp hh with hh1 | hh1
                · exact hiq0 hh1
                · exact hic (List.mem_singleton.mp hh1)
              have hgc := hinv i hlt hiq
              intro v hv d hd
              have hframe : ∀ w ∈ (csp.cons.getD i default).scope,
                  curDom s2 w = curDom s w := by
                intro w hw
                by_cases hwp : w ∈ ps2.map Prod.fst
                · exfalso
                  rw [List.mem_map] at hwp
                  obtain ⟨pl, hpl, hplw⟩ := hwp
                  have hin : i ∈ consWithVar csp pl.1 :=
                    consWithVar_mem csp pl.1 i hlt (by rw [hplw]; exact hw)
                  exact hq2 (spush pl hpl i hin)
                · rw [sseg.1]
                  exact curDom_applyPrunes_of_not_mem s ps2 w hwp
              rw [hasSupport_congr s2 s _ v d hframe]
              refine hgc v hv d ?_
              rw [← hframe v hv]
              exact hd
          have hrec2 : GACfuel csp fuel q2 s2 = some (false, r2.2.1, r2.2.2) := by
            rw [hrec, ← h1]
          intro i hlt
          rw [← h3]
          exact ih q2 s2 r2.2.1 r2.2.2 hrec2 hinv2 i hlt

theorem GACfuel_allgood (csp : CSP) :
    ∀ (fuel : Nat) (q : List Nat) (s : PState),
      (∀ i, i < csp.cons.length → gacConsistent s (csp.cons.getD i default)) →
      q.length + 1 ≤ fuel →
      GACfuel csp fuel q s = some (false, [], s) := by
  intro fuel
  induction fuel with
  | zero =>
    intro q s _ h
    omega
  | succ fuel ih =>
    intro q s hall hlen
    simp only [GACfuel]
    cases hpop : gacPop q with
    | none => rfl
    | some p =>
      obtain ⟨ci, q0⟩ := p
      simp only
      have hscan : gacScanScope csp (csp.cons.getD ci default)
          (csp.cons.getD ci default).scope s q0 =
          .ok [] s q0 := by
        apply gacScanScope_noop
        intro v hv d hd
        by_cases hci : ci < csp.cons.length
        · exact hall ci hci v hv d hd
        · exfalso
          have hdef : csp.cons.getD ci default = default :=
            List.getD_eq_default _ _ (by omega)
          rw [hdef] at hv
          exact absurd hv (by simp [default])
      rw [hscan]
      simp only
      have hqlen : q0.length + 1 = q.length := by
        have := gacPop_eq q ci q0 hpop
        rw [this, List.length_append]
        simp
      rw [ih q0 s hall (by omega)]
      rfl

theorem mem_seedQueue (l : List Nat) (i : Nat) : i ∈ seedQueue l ↔ i ∈ l := by
  rw [seedQueue_eq_reverse]
  exact List.mem_reverse

theorem GAC_eq (csp : CSP) (q : List Nat) (s : PState) :
    GAC csp q s = (GACfuel csp (gacBound csp q s) q s).getD (false, [], s) := rfl

theorem prop_GAC_none_eq (csp : CSP) (s : PState) :
    prop_GAC csp none s =
      (!(GAC csp (seedQueue (List.range csp.cons.length)) s).1,
        (GAC csp (seedQueue (List.range csp.cons.length)) s).2.1,
        (GAC csp (seedQueue (List.range csp.cons.length)) s).2.2) := rfl

theorem prop_GAC_some_eq (csp : CSP) (v : VarId) (s : PState) :
    prop_GAC csp (some v) s =
      (!(GAC csp (seedQueue (consWithVar csp v)) s).1,
        (GAC csp (seedQueue (consWithVar csp v)) s).2.1,
        (GAC csp (seedQueue (consWithVar csp v)) s).2.2) := rfl

theorem GAC_seg (csp : CSP) (q : List Nat) (s : PState) :
    PruneSeg s (GAC csp q s).2.1 (GAC csp q s).2.2 := by
  rw [GAC_eq]
  cases hres : GACfuel csp (gacBound csp q s) q s with
  | none => exact seg_nil s
  | some r0 => exact GACfuel_seg csp _ q s r0 hres

theorem prop_GAC_seg (csp : CSP) (nv : Option VarId) (s : PState) :
    PruneSeg s (prop_GAC csp nv s).2.1 (prop_GAC csp nv s).2.2 := by
  cases nv with
  | none =>
    rw [prop_GAC_none_eq]
    exact GAC_seg csp (seedQueue (List.range csp.cons.length)) s
  | some v =>
    rw [prop_GAC_some_eq]
    exact GAC_seg csp (seedQueue (consWithVar csp v)) s

theorem GAC_dwo_shape (csp : CSP) (q : List Nat) (s : PState)
    (ps : List (VarId × Val)) (s1 : PState) (h : GAC csp q s = (true, ps, s1)) :
    ∃ ps0 p, ps = ps0 ++ [p] ∧ curDom s1 p.1 = [] := by
  rw [GAC_eq] at h
  cases hres : GACfuel csp (gacBound csp q s) q s with
  | none =>
    rw [hres] at h
    simp only [Option.getD_none, Prod.mk.injEq] at h
    exact absurd h.1 (by simp)
  | some r0 =>
    rw [hres] at h
    simp only [Option.getD_some] at h
    have heq : GACfuel csp (gacBound csp q s) q s = some (true, ps, s1) := by
      rw [hres, h]
    exact GACfuel_dwo_shape csp _ q s ps s1 heq

theorem prop_GAC_dwo (csp : CSP) (nv : Option VarId) (s : PState)
    (ps : List (VarId × Val)) (s1 : PState)
    (h : prop_GAC csp nv s = (false, ps, s1)) :
    ∃ ps0 p, ps = ps0 ++ [p] ∧ curDom s1 p.1 = [] := by
  cases nv with
  | none =>
    rw [prop_GAC_none_eq] at h
    simp only [Prod.mk.injEq] at h
    obtain ⟨h1, h2, h3⟩ := h
    rw [Bool.not_eq_false'] at h1
    refine GAC_dwo_shape csp (seedQueue (List.range csp.cons.length)) s ps s1 ?_
    rw [← h1, ← h2, ← h3]
  | some v =>
    rw [prop_GAC_some_eq] at h
    simp only [Prod.mk.injEq] at h
    obtain ⟨h1, h2, h3⟩ := h
    rw [Bool.not_eq_false'] at h1
    refine GAC_dwo_shape csp (seedQueue (consWithVar csp v)) s ps s1 ?_
    rw [← h1, ← h2, ← h3]

theorem GAC_fixpoint_all (csp : CSP) (s : PState) (ps : List (VarId × Val))
    (s1 : PState)
    (h : GAC csp (seedQueue (List.range csp.cons.length)) s = (false, ps, s1)) :
    ∀ i, i < csp.cons.length → gacConsistent s1 (csp.cons.getD i default) := by
  rw [GAC_eq] at h
  have hsome := GACfuel_suff csp
    (gacBound csp (seedQueue (List.range csp.cons.length)) s)
    (seedQueue (List.range csp.cons.length)) s (le_refl _)
  cases hres : GACfuel csp (gacBound csp (seedQueue (List.range csp.cons.length)) s)
      (seedQueue (List.range csp.cons.length)) s with
  | none =>
    rw [hres] at hsome
    simp at hsome
  | some r0 =>
    rw [hres] at h
    simp only [Option.getD_some] at h
    have heq : GACfuel csp (gacBound csp (seedQueue (List.range csp.cons.length)) s)
        (seedQueue (List.range csp.cons.length)) s = some (false, ps, s1) := by
      rw [hres, h]
    intro i hlt
    refine GACfuel_fixpoint csp _ _ s ps s1 heq ?_ i hlt
    intro j hj hjq
    exfalso
    apply hjq
    rw [mem_seedQueue]
    exact List.mem_range.mpr hj

theorem prop_GAC_fixpoint (csp : CSP) (s : PState) (ps : List (VarId × Val))
    (s1 : PState) (h : prop_GAC csp none s = (true, ps, s1)) :
    ∀ i, i < csp.cons.length → gacConsistent s1 (csp.cons.getD i default) := by
  rw [prop_GAC_none_eq] at h
  simp only [Prod.mk.injEq] at h
  obtain ⟨h1, h2, h3⟩ := h
  rw [Bool.not_eq_true'] at h1
  refine GAC_fixpoint_all csp s ps s1 ?_
  rw [← h1, ← h2, ← h3]

theorem prop_GAC_rerun (csp : CSP) (s1 : PState)
    (hall : ∀ i, i < csp.cons.length → gacConsistent s1 (csp.cons.getD i default)) :
    prop_GAC csp none s1 = (true, [], s1) := by
  have hrun := GACfuel_allgood csp
    (gacBound csp (seedQueue (List.range csp.cons.length)) s1)
    (seedQueue (List.range csp.cons.length)) s1 hall
    (by unfold gacBound; omega)
  rw [prop_GAC_none_eq, GAC_eq, hrun]
  rfl

theorem support_tuple_iff (s : PState) (v : VarId) (d : Val)
    (hvd : s.asn v = some d) :
    ∀ (sc : List VarId) (t : List Val),
      t.length = sc.length →
      (∀ w ∈ sc, ∃ dw, s.asn w = some dw ∧ curDom s w = [dw]) →
      (((sc.zip t).all fun p =>
          if p.1 = v then p.2 == d else decide (p.2 ∈ curDom s p.1)) = true ↔
        t.map some = sc.map s.asn) := by
  intro sc
  induction sc with
  | nil =>
    intro t hlen _
    have ht : t = [] := List.eq_nil_of_length_eq_zero (by simpa using hlen)
    subst ht
    simp
  | cons w sc ih =>
    intro t hlen hall
    cases t with
    | nil => simp at hlen
    | cons e t =>
      obtain ⟨dw, hdw1, hdw2⟩ := hall w (List.mem_cons_self _ _)
      have hrest := ih t (by simpa using hlen)
        fun w2 hw2 => hall w2 (List.mem_cons_of_mem _ hw2)
      simp only [List.zip_cons_cons, List.all_cons, List.map_cons, Bool.and_eq_true,
        List.cons.injEq, hrest]
      constructor
      · rintro ⟨hc, hr⟩
        refine ⟨?_, hr⟩
        by_cases hwv : w = v
        · rw [if_pos hwv] at hc
          rw [hwv, hvd]
          simp only [Option.some.injEq]
          exact beq_iff_eq.mp hc
        · rw [if_neg hwv] at hc
          rw [hdw1]
          simp only [Option.some.injEq]
          have : e ∈ curDom s w := of_decide_eq_true hc
          rw [hdw2] at this
          exact List.mem_singleton.mp this
      · rintro ⟨hc, hr⟩
        refine ⟨?_, hr⟩
        by_cases hwv : w = v
        · rw [if_pos hwv]
          rw [hwv, hvd] at hc
          simp only [Option.some.injEq] at hc
          exact beq_iff_eq.mpr hc
        · rw [if_neg hwv]
          rw [hdw1] at hc
          simp only [Option.some.injEq] at hc
          refine decide_eq_true ?_
          rw [hdw2, hc]
          exact List.mem_singleton.mpr rfl

theorem hasSupport_eq_check (s : PState) (c : Constraint) (v : VarId) (d : Val)
    (hvd : s.asn v = some d)
    (hlen : ∀ t ∈ c.tuples, t.length = c.scope.length)
    (hall : ∀ w ∈ c.scope, ∃ dw, s.asn w = some dw ∧ curDom s w = [dw]) :
    hasSupport s c v d = checkVals c (c.scope.map s.asn) := by
  unfold hasSupport checkVals
  refine list_any_congr fun t ht => ?_
  have hiff := support_tuple_iff s v d hvd c.scope t (hlen t ht) hall
  have h2 : (t.map some == c.scope.map s.asn) = true ↔
      t.map some = c.scope.map s.asn := beq_iff_eq ..
  rw [Bool.eq_iff_iff, hiff, h2]

theorem prop_BT_loop_false (s : PState) :
    ∀ cl : List Constraint,
      (prop_BT_loop s cl = false ↔
        ∃ c ∈ cl, nUnasgn s c = 0 ∧ checkVals c (c.scope.map s.asn) = false) := by
  intro cl
  induction cl with
  | nil => simp [prop_BT_loop]
  | cons c rest ih =>
    simp only [prop_BT_loop]
    by_cases hn : nUnasgn s c = 0
    · rw [if_pos hn]
      by_cases hchk : checkVals c (c.scope.map s.asn) = true
      · rw [if_pos hchk, ih]
        constructor
        · rintro ⟨c2, hc2, hp⟩
          exact ⟨c2, List.mem_cons_of_mem _ hc2, hp⟩
        · rintro ⟨c2, hc2, h0, hf⟩
          rcases List.mem_cons.mp hc2 with hcc | hcc
          · subst hcc
            rw [hchk] at hf
            exact absurd hf (by simp)
          · exact ⟨c2, hcc, h0, hf⟩
      · rw [if_neg hchk]
        constructor
        · intro _
          refine ⟨c, List.mem_cons_self _ _, hn, ?_⟩
          revert hchk
          cases checkVals c (c.scope.map s.asn) <;> simp
        · intro _
          rfl
    · rw [if_neg hn, ih]
      constructor
      · rintro ⟨c2, hc2, hp⟩
        exact ⟨c2, List.mem_cons_of_mem _ hc2, hp⟩
      · rintro ⟨c2, hc2, h0, hf⟩
        rcases List.mem_cons.mp hc2 with hcc | hcc
        · subst hcc
          exact absurd h0 hn
        · exact ⟨c2, hcc, h0, hf⟩

/-! ### Claim theorems -/

/-- C1: for every call of `prop_FC` or `prop_GAC` (on a well-formed state,
whose domains are duplicate-free sets as the data model requires), the
returned prunings list reports each pruning exactly once: it has no
duplicate (variable, value) pair, every listed value was in that
variable's current domain before the call, and the final state is exactly
the initial state with the listed prunings applied in order (so no pruning
performed during the call is missing from the list). -/
theorem c1_prunings_reported_exactly_once :
    (∀ (csp : CSP) (nv : Option VarId) (s : PState), WFState s →
      (prop_FC csp nv s).2.1.Nodup ∧
        (∀ p ∈ (prop_FC csp nv s).2.1, p.2 ∈ curDom s p.1) ∧
        (prop_FC csp nv s).2.2 = applyPrunes s (prop_FC csp nv s).2.1) ∧
    (∀ (csp : CSP) (nv : Option VarId) (s : PState), WFState s →
      (prop_GAC csp nv s).2.1.Nodup ∧
        (∀ p ∈ (prop_GAC csp nv s).2.1, p.2 ∈ curDom s p.1) ∧
        (prop_GAC csp nv s).2.2 = applyPrunes s (prop_GAC csp nv s).2.1) := by
  constructor
  · intro csp nv s hwf
    have hseg := prop_FC_loop_seg_proj (selectedCons csp nv) s
    obtain ⟨he, hw⟩ := hseg
    obtain ⟨hnd, hin, -⟩ := hw hwf
    exact ⟨hnd, hin, he⟩
  · intro csp nv s hwf
    have hseg := prop_GAC_seg csp nv s
    obtain ⟨he, hw⟩ := hseg
    obtain ⟨hnd, hin, -⟩ := hw hwf
    exact ⟨hnd, hin, he⟩

/-- Witness for C1 at a concrete forward-checking run (which prunes (1, 3)
and wipes out variable 1) and a concrete GAC run (which prunes (0, 1)). -/
theorem c1_prunings_reported_exactly_once_witness :
    WFState wS1 ∧
      ((prop_FC wCsp1 none wS1).2.1.Nodup ∧
        (∀ p ∈ (prop_FC wCsp1 none wS1).2.1, p.2 ∈ curDom wS1 p.1) ∧
        (prop_FC wCsp1 none wS1).2.2 =
          applyPrunes wS1 (prop_FC wCsp1 none wS1).2.1) ∧
      ((prop_GAC wCsp1 none wS1).2.1.Nodup ∧
        (∀ p ∈ (prop_GAC wCsp1 none wS1).2.1, p.2 ∈ curDom wS1 p.1) ∧
        (prop_GAC wCsp1 none wS1).2.2 =
          applyPrunes wS1 (prop_GAC wCsp1 none wS1).2.1) :=
  ⟨by decide, c1_prunings_reported_exactly_once.1 wCsp1 none wS1 (by decide),
    c1_prunings_reported_exactly_once.2 wCsp1 none wS1 (by decide)⟩

/-- C2: after a `prop_GAC(csp, None)` call that returns consistent=true,
the CSP is at the GAC fixpoint: every value left in the current domain of
every variable in the scope of every constraint of the csp has a support. -/
theorem c2_gac_fixpoint (csp : CSP) (s : PState) (ps : List (VarId × Val))
    (s1 : PState) (h : prop_GAC csp none s = (true, ps, s1)) :
    ∀ c ∈ csp.cons, ∀ v ∈ c.scope, ∀ d ∈ curDom s1 v,
      hasSupport s1 c v d = true := by
  intro c hc v hv d hd
  obtain ⟨i, hilt, higet⟩ := List.mem_iff_getElem.mp hc
  have hfix := prop_GAC_fixpoint csp s ps s1 h i hilt
  have hgd : csp.cons.getD i default = c := by
    rw [List.getD_eq_getElem _ _ hilt]
    exact higet
  rw [hgd] at hfix
  exact hfix v hv d hd

/-- Witness for C2: a successful pre-search GAC run on a binary
not-equal constraint with full domains, at variable 0 and value 1. -/
theorem c2_gac_fixpoint_witness :
    hasSupport (prop_GAC wCsp2 none wS2).2.2 ⟨[0, 1], [[1, 2], [2, 1]]⟩ 0 1 =
      true :=
  c2_gac_fixpoint wCsp2 wS2 (prop_GAC wCsp2 none wS2).2.1
    (prop_GAC wCsp2 none wS2).2.2 rfl ⟨[0, 1], [[1, 2], [2, 1]]⟩ (by decide) 0
    (by decide) 1 (by decide)

/-- C3: whenever `prop_FC` or `prop_GAC` returns consistent=false, the
call stopped at the pruning that emptied a domain: the returned list ends
with a pruning whose variable's current domain is empty in the final
state, and the final state is exactly the initial state with the returned
prunings applied — nothing was pruned beyond the reported list. -/
theorem c3_dwo_stops_immediately :
    (∀ (csp : CSP) (nv : Option VarId) (s : PState) (ps : List (VarId × Val))
        (s1 : PState), prop_FC csp nv s = (false, ps, s1) →
      s1 = applyPrunes s ps ∧ ∃ ps0 p, ps = ps0 ++ [p] ∧ curDom s1 p.1 = []) ∧
    (∀ (csp : CSP) (nv : Option VarId) (s : PState) (ps : List (VarId × Val))
        (s1 : PState), prop_GAC csp nv s = (false, ps, s1) →
      s1 = applyPrunes s ps ∧ ∃ ps0 p, ps = ps0 ++ [p] ∧ curDom s1 p.1 = []) := by
  constructor
  · intro csp nv s ps s1 h
    exact ⟨(prop_FC_loop_seg (selectedCons csp nv) s false ps s1 h).1,
      prop_FC_loop_dwo (selectedCons csp nv) s ps s1 h⟩
  · intro csp nv s ps s1 h
    have hseg := prop_GAC_seg csp nv s
    rw [h] at hseg
    exact ⟨hseg.1, prop_GAC_dwo csp nv s ps s1 h⟩

/-- Witness for C3: the concrete forward-checking and GAC wipeout runs. -/
theorem c3_dwo_stops_immediately_witness :
    ((prop_FC wCsp1 none wS1).2.2 =
        applyPrunes wS1 (prop_FC wCsp1 none wS1).2.1 ∧
      ∃ ps0 p, (prop_FC wCsp1 none wS1).2.1 = ps0 ++ [p] ∧
        curDom (prop_FC wCsp1 none wS1).2.2 p.1 = []) ∧
    ((prop_GAC wCsp1 none wS1).2.2 =
        applyPrunes wS1 (prop_GAC wCsp1 none wS1).2.1 ∧
      ∃ ps0 p, (prop_GAC wCsp1 none wS1).2.1 = ps0 ++ [p] ∧
        curDom (prop_GAC wCsp1 none wS1).2.2 p.1 = []) :=
  ⟨c3_dwo_stops_immediately.1 wCsp1 none wS1 (prop_FC wCsp1 none wS1).2.1
      (prop_FC wCsp1 none wS1).2.2 rfl,
    c3_dwo_stops_immediately.2 wCsp1 none wS1 (prop_GAC wCsp1 none wS1).2.1
      (prop_GAC wCsp1 none wS1).2.2 rfl⟩

/-- C5: every pair (x, v) pruned by `prop_FC` is sound: some constraint of
the csp has exactly one unassigned variable, that variable is x, and the
scope-ordered tuple substituting v for x and the assigned value for every
other scope variable fails the constraint's check.  The assignment is
never modified during the call, so this condition at the moment of the
pruning coincides with the same condition at the call state `s`. -/
theorem c5_fc_prunings_sound (csp : CSP) (nv : Option VarId) (s : PState) :
    ∀ p ∈ (prop_FC csp nv s).2.1,
      ∃ c ∈ csp.cons, nUnasgn s c = 1 ∧ unasgnVars s c = [p.1] ∧
        checkVals c (substVals c p.1 p.2 s) = false := by
  intro p hp
  obtain ⟨con, hc, h1, h2, h3⟩ := prop_FC_loop_sound (selectedCons csp nv) s p hp
  exact ⟨con, selectedCons_subset csp nv con hc, h1, h2, h3⟩

/-- Witness for C5: the pruning (1, 3) of the concrete forward-checking
run is justified by the constraint over (0, 1). -/
theorem c5_fc_prunings_sound_witness :
    ∃ c ∈ wCsp1.cons, nUnasgn wS1 c = 1 ∧ unasgnVars wS1 c = [(1, 3).1] ∧
      checkVals c (substVals c (1, 3).1 (1, 3).2 wS1) = false :=
  c5_fc_prunings_sound wCsp1 none wS1 (1, 3) (by decide)

/-- C6: `prop_BT` with no newly-assigned variable returns (true, []); with
a newly-assigned variable V it returns false exactly when some constraint
containing V with zero unassigned variables fails the check on the tuple
of assigned values in scope order; in every case the prunings list is
empty and the state (every variable's domain) is unchanged. -/
theorem c6_bt_behavior (csp : CSP) (s : PState) :
    prop_BT csp none s = (true, [], s) ∧
      ∀ v : VarId,
        ((prop_BT csp (some v) s).1 = false ↔
          ∃ c ∈ csp.cons, v ∈ c.scope ∧ nUnasgn s c = 0 ∧
            checkVals c (c.scope.map s.asn) = false) ∧
        (prop_BT csp (some v) s).2.1 = [] ∧ (prop_BT csp (some v) s).2.2 = s := by
  refine ⟨rfl, fun v => ⟨?_, rfl, rfl⟩⟩
  have h := prop_BT_loop_false s (selectedCons csp (some v))
  constructor
  · intro hfalse
    obtain ⟨c, hc, h0, hf⟩ := h.mp hfalse
    refine ⟨c, ?_, ?_, h0, hf⟩
    · exact List.mem_of_mem_filter hc
    · have := List.of_mem_filter hc
      simpa using this
  · rintro ⟨c, hc, hv, h0, hf⟩
    refine h.mpr ⟨c, ?_, h0, hf⟩
    show c ∈ csp.cons.filter fun c => v ∈ c.scope
    rw [List.mem_filter]
    exact ⟨hc, by simpa using hv⟩

/-- C7: re-running a strategy at its own fixpoint with no newly-assigned
variable yields (true, []) and no prunings: `prop_BT` always, and for
`prop_FC`/`prop_GAC` on a well-formed state, a second pre-search call
after a successful one returns (true, []) and leaves the state unchanged. -/
theorem c7_idempotent_at_fixpoint (csp : CSP) (s : PState) (hwf : WFState s) :
    prop_BT csp none s = (true, [], s) ∧
      (∀ ps s1, prop_FC csp none s = (true, ps, s1) →
        prop_FC csp none s1 = (true, [], s1)) ∧
      (∀ ps s1, prop_GAC csp none s = (true, ps, s1) →
        prop_GAC csp none s1 = (true, [], s1)) := by
  refine ⟨rfl, ?_, ?_⟩
  · intro ps s1 h
    have hall := prop_FC_loop_post (selectedCons csp none) s ps s1 h hwf
    exact prop_FC_loop_pass (selectedCons csp none) s1 hall
  · intro ps s1 h
    exact prop_GAC_rerun csp s1 (prop_GAC_fixpoint csp s ps s1 h)

/-- Witness for C7 on a concrete CSP at fixpoint. -/
theorem c7_idempotent_at_fixpoint_witness :
    WFState wS2 ∧ prop_BT wCsp2 none wS2 = (true, [], wS2) ∧
      prop_FC wCsp2 none (prop_FC wCsp2 none wS2).2.2 =
        (true, [], (prop_FC wCsp2 none wS2).2.2) ∧
      prop_GAC wCsp2 none (prop_GAC wCsp2 none wS2).2.2 =
        (true, [], (prop_GAC wCsp2 none wS2).2.2) :=
  ⟨by decide, (c7_idempotent_at_fixpoint wCsp2 wS2 (by decide)).1,
    (c7_idempotent_at_fixpoint wCsp2 wS2 (by decide)).2.1
      (prop_FC wCsp2 none wS2).2.1 (prop_FC wCsp2 none wS2).2.2 rfl,
    (c7_idempotent_at_fixpoint wCsp2 wS2 (by decide)).2.2
      (prop_GAC wCsp2 none wS2).2.1 (prop_GAC wCsp2 none wS2).2.2 rfl⟩

/-- C8 counterexample: the GAC queue is not processed as a LIFO stack.
`prop_GAC` seeds the queue by prepending (`queue = [con] + queue`, modelled
by `gacPush` and `seedQueue`), and `GAC` removes with `queue.pop()`
(modelled by `gacPop`), which takes the LAST list element.  After pushing
constraint 0 and then constraint 1 (so 1 is the most recently added), the
element removed is 0, not 1: the claim fails at this input. -/
theorem c8_lifo_counterexample :
    seedQueue [0, 1] = gacPush 1 (gacPush 0 []) ∧
      gacPop (gacPush 1 (gacPush 0 [])) = some (0, [1]) ∧ (0 : Nat) ≠ 1 := by
  decide

/-- C8 amended: the queue is processed FIFO — the constraint removed at
each step is the LEAST recently added among those currently on the queue.
Equivalently, pushing a constraint never changes which element `gacPop`
removes next unless the queue was empty. -/
theorem c8_queue_is_fifo (ci : Nat) (q : List Nat) :
    (gacPop (gacPush ci q)).map Prod.fst =
      some (((gacPop q).map Prod.fst).getD ci) := by
  cases q with
  | nil => rfl
  | cons a rest =>
    simp only [gacPush, gacPop, Option.map_some', Option.getD_some,
      Option.some.injEq]
    exact List.getLast_cons (List.cons_ne_nil a rest)

/-- C9: the bottom-boundary branch of `edge_without_storage` tests
`state.width - 1` against the y-coordinates of available storage (line 81
of solution.py) instead of `state.height - 1`; on the 3×2 state `wSok`
with a box on the bottom boundary, the code reports a deadlock while the
symmetric rule does not, and the state's width differs from its height. -/
theorem c9_bottom_edge_uses_width :
    wSok.width ≠ wSok.height ∧
      edge_without_storage (1, 1) wSok = true ∧
      edge_without_storage_symmetric (1, 1) wSok = false := by
  decide

/-- C10: the scope loop of `GAC` also examines assigned variables.  For a
csp whose only constraint is fully instantiated (every scope variable
assigned, with the singleton current domain the data model prescribes) and
violated by the assignment, the first scope variable's assigned value has
no support, `GAC` prunes it, the domain becomes empty, and the call
returns (false, prunings) through the domain-wipeout branch — there is no
separate full-assignment check. -/
theorem c10_assigned_variable_wipeout (csp : CSP) (c : Constraint)
    (v0 : VarId) (vrest : List VarId) (s : PState) (d0 : Val)
    (hcons : csp.cons = [c])
    (hscope : c.scope = v0 :: vrest)
    (hlen : ∀ t ∈ c.tuples, t.length = c.scope.length)
    (hall : ∀ w ∈ c.scope, ∃ dw, s.asn w = some dw ∧ curDom s w = [dw])
    (hasn : s.asn v0 = some d0)
    (hviol : checkVals c (c.scope.map s.asn) = false) :
    prop_GAC csp none s = (false, [(v0, d0)], prune s v0 d0) ∧
      curDom (prune s v0 d0) v0 = [] := by
  have hv0 : v0 ∈ c.scope := by
    rw [hscope]
    exact List.mem_cons_self _ _
  have hcd0 : curDom s v0 = [d0] := by
    obtain ⟨dw, hdw1, hdw2⟩ := hall v0 hv0
    rw [hasn] at hdw1
    simp only [Option.some.injEq] at hdw1
    rw [hdw2, hdw1]
  have hsup : hasSupport s c v0 d0 = false := by
    rw [hasSupport_eq_check s c v0 d0 hasn hlen hall]
    exact hviol
  have hemp : curDom (prune s v0 d0) v0 = [] := by
    rw [curDom_prune, if_pos rfl, hcd0]
    simp
  have h1 : gacScanVals csp c v0 (curDom s v0) s [] =
      .dwo [(v0, d0)] (prune s v0 d0) := by
    rw [hcd0]
    simp only [gacScanVals]
    rw [if_pos hsup, if_pos hemp]
  have h2 : gacScanScope csp c c.scope s [] =
      .dwo [(v0, d0)] (prune s v0 d0) := by
    rw [hscope]
    simp only [gacScanScope]
    rw [h1]
  have hn : csp.cons.length = 1 := by
    rw [hcons]
    rfl
  have hgd : csp.cons.getD 0 default = c := by
    rw [hcons]
    rfl
  have hpop : gacPop [0] = some (0, []) := rfl
  have hb : gacBound csp [0] s = (domSize s * (csp.cons.length + 1) + 1) + 1 := rfl
  have h3 : GACfuel csp (gacBound csp [0] s) [0] s =
      some (true, [(v0, d0)], prune s v0 d0) := by
    rw [hb]
    simp only [GACfuel]
    rw [hpop]
    simp only
    rw [hgd, h2]
  have h4 : GAC csp [0] s = (true, [(v0, d0)], prune s v0 d0) := by
    rw [GAC_eq, h3]
    rfl
  have hseed : seedQueue (List.range csp.cons.length) = [0] := by
    rw [hn]
    rfl
  rw [prop_GAC_none_eq, hseed, h4]
  exact ⟨rfl, hemp⟩

/-- Witness for C10: the fully assigned violated constraint of `wCsp3`. -/
theorem c10_assigned_variable_wipeout_witness :
    prop_GAC wCsp3 none wS3 = (false, [(0, 1)], prune wS3 0 1) ∧
      curDom (prune wS3 0 1) 0 = [] := by
  refine c10_assigned_variable_wipeout wCsp3 ⟨[0, 1], [[1, 2]]⟩ 0 [1] wS3 1
    rfl rfl (by decide) ?_ rfl (by decide)
  intro w hw
  rcases List.mem_cons.mp hw with h | h
  · subst h
    exact ⟨1, rfl, rfl⟩
  · rw [List.mem_singleton] at h
    subst h
    exact ⟨1, rfl, rfl⟩

/-- C4 (failing-input evaluation): on the board [[2], [11, 1]] — a 2×2
grid with one 2-element cage forcing cell (0, 0) to value 1 —
`caged_csp_model` places in the returned variable array a freshly created
Variable object (creation id 4, same name V11, domain [1]) instead of the
Variable registered in the CSP for that cell (id 0): the array object is
neither in the CSP's variable list nor in any constraint's scope, a
distinct duplicate Variable object for the same cell.  This contradicts
the claim and the module's own header documentation, under which
`var_array[0][0].get_assigned_value()` yields the solved value. -/
theorem c4_duplicate_variable_for_two_element_cage :
    ((caged_csp_model [[2], [11, 1]]).2.getD 0 []).getD 0 default =
        (⟨4, 11, [1]⟩ : PVar) ∧
      (caged_csp_model [[2], [11, 1]]).1.vars.map PVar.id = [0, 1, 2, 3] ∧
      (⟨4, 11, [1]⟩ : PVar) ∉ (caged_csp_model [[2], [11, 1]]).1.vars ∧
      ∀ con ∈ (caged_csp_model [[2], [11, 1]]).1.cons,
        (⟨4, 11, [1]⟩ : PVar) ∉ con.scope := by
  decide
